import Mathlib

/-!
Verification of the GrokDB data-access layer (src/index.ts).

The development shallowly embeds the parts of the code the claims touch:
JavaScript runtime values, the `JSON.stringify` / `JSON.parse` builtins
(numbers restricted to integers), the CryptoJS AES interface as an abstract
symmetric cipher, the per-column value codec (`processValue` /
`unprocessValue`), the CRUD operations (`insert`, `find`, `update`,
`delete`) over an in-memory model of the SQLite store, and the migration
runner.  Fallible code returns `Except`; events are returned as topic
lists; the event-emitter, prepared-statement and file-system plumbing are
outside the claims.
-/

set_option autoImplicit false

namespace GrokDBSpec

/-! ### JavaScript values

Model of the JavaScript runtime values that flow through the codec.
Numbers are modelled as integers (the claims do not exercise fractional
values). -/

inductive JSVal where
  | vnull
  | vbool (b : Bool)
  | vnum (n : Int)
  | vstr (s : String)
  | varr (xs : List JSVal)
  | vobj (fs : List (String × JSVal))

/-- Structural equality on `JSVal`, Bool-valued (used for SQL `=`). -/
def jvBeq : JSVal → JSVal → Bool
  | .vnull, .vnull => true
  | .vbool a, .vbool b => a == b
  | .vnum a, .vnum b => a == b
  | .vstr a, .vstr b => a == b
  | .varr a, .varr b => go a b
  | .vobj a, .vobj b => goObj a b
  | _, _ => false
where
  go : List JSVal → List JSVal → Bool
    | [], [] => true
    | x :: xs, y :: ys => jvBeq x y && go xs ys
    | _, _ => false
  goObj : List (String × JSVal) → List (String × JSVal) → Bool
    | [], [] => true
    | (k1, v1) :: xs, (k2, v2) :: ys => k1 == k2 && jvBeq v1 v2 && goObj xs ys
    | _, _ => false

/-- `typeof value === 'string'` check. -/
def isStr : JSVal → Bool
  | .vstr _ => true
  | _ => false

/-- `value === null` check (SQL NULL is represented as `vnull`). -/
def isNullV : JSVal → Bool
  | .vnull => true
  | _ => false

/-! ### Decimal digits (for `JSON.stringify` of numbers) -/

def digitChar (n : Nat) : Char := Char.ofNat (48 + n)

def digitVal (c : Char) : Nat := c.toNat - 48

/-- Big-endian decimal digits of a natural number, fuelled so the kernel
can evaluate it; `natDigits` supplies enough fuel. -/
def natDigitsAux : Nat → Nat → List Char → List Char
  | 0, _, acc => acc
  | f + 1, n, acc =>
    if n < 10 then digitChar n :: acc
    else natDigitsAux f (n / 10) (digitChar (n % 10) :: acc)

def natDigits (n : Nat) : List Char := natDigitsAux (n + 1) n []

/-- Decimal representation of an integer (`String(n)` for our integer
fragment of JavaScript numbers). -/
def intChars (n : Int) : List Char :=
  if n < 0 then '-' :: natDigits n.natAbs else natDigits n.toNat

/-- Decimal digit test (char code between 48 and 57). -/
def isDigitCh (c : Char) : Bool := 48 ≤ c.toNat && c.toNat ≤ 57

/-- Greedy digit consumption, accumulating the value left to right. -/
def parseDigitsAux : Nat → List Char → Nat × List Char
  | acc, [] => (acc, [])
  | acc, c :: cs =>
    if isDigitCh c then parseDigitsAux (acc * 10 + digitVal c) cs else (acc, c :: cs)

/-- Parse a nonempty run of decimal digits. -/
def parseDigits : List Char → Option (Nat × List Char)
  | [] => none
  | c :: cs => if isDigitCh c then some (parseDigitsAux (digitVal c) cs) else none

/-- Parse an optionally negated decimal integer. -/
def parseIntChars (cs : List Char) : Option (Int × List Char) :=
  match cs with
  | '-' :: cs' => (parseDigits cs').map (fun p => (-(p.1 : Int), p.2))
  | _ => (parseDigits cs).map (fun p => ((p.1 : Int), p.2))

/-! #### Digit lemmas -/

/-- Reference big-endian digit string, stated through `Nat.digits`. -/
def digitsBE (n : Nat) : List Char :=
  if n = 0 then ['0'] else ((Nat.digits 10 n).reverse.map digitChar)

theorem digitChar_zero : digitChar 0 = '0' := by decide

theorem natDigitsAux_eq (f : Nat) :
    ∀ n acc, n < 10 ^ f → 1 ≤ f → natDigitsAux f n acc = digitsBE n ++ acc := by
  induction f with
  | zero => intro n acc _ hf; omega
  | succ f ih =>
    intro n acc h _
    rw [natDigitsAux]
    by_cases h10 : n < 10
    · simp only [if_pos h10]
      by_cases h0 : n = 0
      · subst h0; simp [digitsBE, digitChar_zero]
      · have : Nat.digits 10 n = [n] := by
          rw [Nat.digits_def' (by norm_num : (1:ℕ) < 10) (Nat.pos_of_ne_zero h0)]
          simp [Nat.div_eq_of_lt h10, Nat.mod_eq_of_lt h10]
        simp [digitsBE, h0, this]
    · simp only [if_neg h10]
      have hn0 : n ≠ 0 := by omega
      have hdiv : n / 10 < 10 ^ f := by
        rw [Nat.div_lt_iff_lt_mul (by norm_num)]
        calc n < 10 ^ (f + 1) := h
        _ = 10 ^ f * 10 := by ring
      have hf1 : 1 ≤ f := by
        by_contra hf0
        have : f = 0 := by omega
        subst this
        simp at hdiv
        omega
      rw [ih _ _ hdiv hf1]
      have hrec : Nat.digits 10 n = n % 10 :: Nat.digits 10 (n / 10) := by
        exact Nat.digits_def' (by norm_num : (1:ℕ) < 10) (Nat.pos_of_ne_zero hn0)
      have hd10 : ¬ n / 10 = 0 := by
        intro h'; exact h10 (by omega)
      simp [digitsBE, hn0, hrec, hd10]

theorem natDigits_eq (n : Nat) : natDigits n = digitsBE n := by
  have h : n < 10 ^ (n + 1) := by
    calc n < 10 ^ n := Nat.lt_pow_self (by norm_num) n
    _ ≤ 10 ^ (n + 1) := Nat.pow_le_pow_right (by norm_num) (by omega)
  simpa using natDigitsAux_eq (n + 1) n [] h (by omega)

theorem digitChar_isDigit {d : Nat} (h : d < 10) : isDigitCh (digitChar d) = true := by
  interval_cases d <;> decide

theorem digitVal_digitChar {d : Nat} (h : d < 10) : digitVal (digitChar d) = d := by
  interval_cases d <;> decide

theorem digitsBE_all_digits (n : Nat) :
    ∀ c ∈ digitsBE n, isDigitCh c = true := by
  intro c hc
  unfold digitsBE at hc
  split at hc
  · simp at hc; subst hc; decide
  · simp only [List.mem_map, List.mem_reverse] at hc
    obtain ⟨d, hd, rfl⟩ := hc
    exact digitChar_isDigit (Nat.digits_lt_base (by norm_num) hd)

theorem digitsBE_ne_nil (n : Nat) : digitsBE n ≠ [] := by
  unfold digitsBE
  split
  · simp
  · simp [Nat.digits_ne_nil_iff_ne_zero, *]

/-- Where no digit follows, greedy digit parsing of an all-digit run stops
exactly at its end. -/
def numSafe : List Char → Prop
  | [] => True
  | c :: _ => isDigitCh c = false

theorem parseDigitsAux_append (ds : List Char) :
    ∀ acc rest, (∀ c ∈ ds, isDigitCh c = true) → numSafe rest →
      parseDigitsAux acc (ds ++ rest) =
        (ds.foldl (fun a c => a * 10 + digitVal c) acc, rest) := by
  induction ds with
  | nil =>
    intro acc rest _ hrest
    cases rest with
    | nil => simp [parseDigitsAux]
    | cons c cs =>
      simp only [numSafe] at hrest
      simp [parseDigitsAux, hrest]
  | cons d ds ih =>
    intro acc rest hds hrest
    have hd : isDigitCh d = true := hds d (by simp)
    simp only [List.cons_append, parseDigitsAux, hd, if_pos]
    rw [show ds.append rest = ds ++ rest from rfl]
    rw [ih _ _ (fun c hc => hds c (by simp [hc])) hrest]
    simp

theorem foldl_digits_ofDigits (l : List Nat) :
    ∀ a, List.foldl (fun x d => x * 10 + d) a l =
      a * 10 ^ l.length + Nat.ofDigits 10 l.reverse := by
  induction l with
  | nil => intro a; simp [Nat.ofDigits]
  | cons d t ih =>
    intro a
    simp only [List.foldl_cons, List.reverse_cons, List.length_cons]
    rw [ih]
    have happ : Nat.ofDigits 10 (t.reverse ++ [d]) =
        Nat.ofDigits 10 t.reverse + 10 ^ t.reverse.length * Nat.ofDigits 10 [d] := by
      exact_mod_cast Nat.ofDigits_append
    rw [happ]
    simp [Nat.ofDigits]
    ring

theorem foldl_digitsBE (n : Nat) :
    (digitsBE n).foldl (fun a c => a * 10 + digitVal c) 0 = n := by
  unfold digitsBE
  split
  · simp [digitVal]; omega
  · rw [List.foldl_map]
    have hlt : ∀ d ∈ (Nat.digits 10 n).reverse, d < 10 := by
      intro d hd
      exact Nat.digits_lt_base (by norm_num) (List.mem_reverse.mp hd)
    have : List.foldl (fun a d => a * 10 + digitVal (digitChar d)) 0 (Nat.digits 10 n).reverse
        = List.foldl (fun a d => a * 10 + d) 0 (Nat.digits 10 n).reverse := by
      apply List.foldl_ext
      intro a d hd
      rw [digitVal_digitChar (hlt d hd)]
    rw [this, foldl_digits_ofDigits]
    simp [Nat.ofDigits_digits]

theorem parseDigits_digitsBE (n : Nat) (rest : List Char) (hrest : numSafe rest) :
    parseDigits (digitsBE n ++ rest) = some (n, rest) := by
  obtain ⟨c, cs, hcons⟩ : ∃ c cs, digitsBE n = c :: cs := by
    cases h : digitsBE n with
    | nil => exact absurd h (digitsBE_ne_nil n)
    | cons c cs => exact ⟨c, cs, rfl⟩
  have hall := digitsBE_all_digits n
  rw [hcons] at hall ⊢
  have hc : isDigitCh c = true := hall c (by simp)
  simp only [List.cons_append, parseDigits, hc, if_pos]
  rw [parseDigitsAux_append cs _ _ (fun x hx => hall x (by simp [hx])) hrest]
  have hfold := foldl_digitsBE n
  rw [hcons] at hfold
  simp only [List.foldl_cons] at hfold
  have h0 : (0 : Nat) * 10 + digitVal c = digitVal c := by omega
  rw [h0] at hfold
  simp [hfold]

theorem parseIntChars_cons_ne (c : Char) (t : List Char) (h : c ≠ '-') :
    parseIntChars (c :: t) = (parseDigits (c :: t)).map (fun p => ((p.1 : Int), p.2)) := by
  unfold parseIntChars
  split
  · rename_i cs' heq
    simp only [List.cons.injEq] at heq
    exact absurd heq.1 h
  · rfl

theorem parseIntChars_intChars (n : Int) (rest : List Char) (hrest : numSafe rest) :
    parseIntChars (intChars n ++ rest) = some (n, rest) := by
  by_cases hn : n < 0
  · simp only [intChars, if_pos hn, List.cons_append, parseIntChars]
    rw [natDigits_eq, parseDigits_digitsBE _ _ hrest]
    simp only [Option.map_some']
    have habs : -((n.natAbs : Nat) : Int) = n := by omega
    rw [habs]
  · simp only [intChars, if_neg hn]
    rw [natDigits_eq]
    obtain ⟨c, cs, hcons⟩ : ∃ c cs, digitsBE n.toNat = c :: cs := by
      cases h : digitsBE n.toNat with
      | nil => exact absurd h (digitsBE_ne_nil _)
      | cons c cs => exact ⟨c, cs, rfl⟩
    have hc : isDigitCh c = true := by
      have := digitsBE_all_digits n.toNat
      rw [hcons] at this
      exact this c (by simp)
    have hcm : c ≠ '-' := by
      intro h
      subst h
      simp [isDigitCh] at hc
    rw [hcons]
    simp only [List.cons_append]
    rw [parseIntChars_cons_ne c _ hcm]
    have hp := parseDigits_digitsBE n.toNat rest hrest
    rw [hcons] at hp
    simp only [List.cons_append] at hp
    rw [hp]
    simp only [Option.map_some']
    have htn : ((n.toNat : Nat) : Int) = n := by omega
    rw [htn]

/-! ### JSON string escaping (`JSON.stringify` on strings) -/

def hexChar (n : Nat) : Char :=
  if n < 10 then Char.ofNat (48 + n) else Char.ofNat (87 + n)

def hexVal (c : Char) : Option Nat :=
  if 48 ≤ c.toNat ∧ c.toNat ≤ 57 then some (c.toNat - 48)
  else if 97 ≤ c.toNat ∧ c.toNat ≤ 102 then some (c.toNat - 87)
  else if 65 ≤ c.toNat ∧ c.toNat ≤ 70 then some (c.toNat - 55)
  else none

/-- Escape one character the way `JSON.stringify` quotes strings:
quote and backslash get a backslash, the common control characters get
their short forms, the remaining control characters get `\u00XX`. -/
def escChar (c : Char) : List Char :=
  if c = '"' then ['\\', '"']
  else if c = '\\' then ['\\', '\\']
  else if c = Char.ofNat 8 then ['\\', 'b']
  else if c = Char.ofNat 9 then ['\\', 't']
  else if c = Char.ofNat 10 then ['\\', 'n']
  else if c = Char.ofNat 12 then ['\\', 'f']
  else if c = Char.ofNat 13 then ['\\', 'r']
  else if c.toNat < 32 then
    ['\\', 'u', '0', '0', hexChar (c.toNat / 16), hexChar (c.toNat % 16)]
  else [c]

def escStr (s : List Char) : List Char :=
  s.foldr (fun c acc => escChar c ++ acc) []

/-- A quoted JSON string literal for `s`. -/
def quoteStr (s : String) : List Char := '"' :: escStr s.data ++ ['"']

/-- Short escape sequences accepted after a backslash. -/
def escShort (e : Char) : Option Char :=
  if e = '"' then some '"'
  else if e = '\\' then some '\\'
  else if e = '/' then some '/'
  else if e = 'b' then some (Char.ofNat 8)
  else if e = 'f' then some (Char.ofNat 12)
  else if e = 'n' then some (Char.ofNat 10)
  else if e = 'r' then some (Char.ofNat 13)
  else if e = 't' then some (Char.ofNat 9)
  else none

/-- Decode one escape sequence after a backslash: either `uXXXX` with four
hex digits, or a short escape; returns the decoded character and the
remaining input. -/
def escSplit : List Char → Option (Char × List Char)
  | [] => none
  | e :: cs =>
    if e = 'u' then
      match cs with
      | h1 :: h2 :: h3 :: h4 :: cs' =>
        match hexVal h1, hexVal h2, hexVal h3, hexVal h4 with
        | some a, some b, some x, some d =>
          some (Char.ofNat (((a * 16 + b) * 16 + x) * 16 + d), cs')
        | _, _, _, _ => none
      | _ => none
    else (escShort e).map (fun ch => (ch, cs))

/-- Fuelled parser for the body of a JSON string literal (the opening
quote already consumed); returns the unescaped characters and the input
after the closing quote. -/
def parseJStrF : Nat → List Char → Option (List Char × List Char)
  | 0, _ => none
  | _ + 1, [] => none
  | f + 1, c :: cs =>
    if c = '"' then some ([], cs)
    else if c = '\\' then
      (escSplit cs).bind (fun p => (parseJStrF f p.2).map (fun q => (p.1 :: q.1, q.2)))
    else (parseJStrF f cs).map (fun p => (c :: p.1, p.2))

theorem hexVal_hexChar {n : Nat} (h : n < 16) : hexVal (hexChar n) = some n := by
  interval_cases n <;> decide

theorem escStr_cons (c : Char) (s : List Char) :
    escStr (c :: s) = escChar c ++ escStr s := rfl

theorem escSplit_short (e : Char) (cs : List Char) (h : e ≠ 'u') :
    escSplit (e :: cs) = (escShort e).map (fun ch => (ch, cs)) := by
  unfold escSplit
  simp [h]

theorem escSplit_u (h1 h2 h3 h4 : Char) (cs : List Char) :
    escSplit ('u' :: h1 :: h2 :: h3 :: h4 :: cs) =
      match hexVal h1, hexVal h2, hexVal h3, hexVal h4 with
      | some a, some b, some x, some d =>
        some (Char.ofNat (((a * 16 + b) * 16 + x) * 16 + d), cs)
      | _, _, _, _ => none := by
  unfold escSplit
  simp

theorem parseJStrF_escStr (s : List Char) :
    ∀ f rest, s.length < f → parseJStrF f (escStr s ++ '"' :: rest) = some (s, rest) := by
  induction s with
  | nil =>
    intro f rest hf
    cases f with
    | zero => omega
    | succ f' => simp [escStr, parseJStrF]
  | cons c s ih =>
    intro f rest hf
    cases f with
    | zero => omega
    | succ f' =>
    have hf' : s.length < f' := by simp at hf; omega
    rw [escStr_cons, List.append_assoc]
    unfold escChar
    by_cases h1 : c = '"'
    · simp only [if_pos h1]
      rw [show ['\\', '"'] ++ (escStr s ++ '"' :: rest)
            = '\\' :: '"' :: (escStr s ++ '"' :: rest) from rfl]
      rw [parseJStrF]
      rw [escSplit_short _ _ (by decide)]
      simp [escShort, ih f' _ hf', h1]
    · by_cases h2 : c = '\\'
      · simp only [if_neg h1, if_pos h2]
        rw [show ['\\', '\\'] ++ (escStr s ++ '"' :: rest)
              = '\\' :: '\\' :: (escStr s ++ '"' :: rest) from rfl]
        rw [parseJStrF]
        rw [escSplit_short _ _ (by decide)]
        simp [escShort, ih f' _ hf', h2]
      · by_cases h3 : c = Char.ofNat 8
        · simp only [if_neg h1, if_neg h2, if_pos h3]
          rw [show ['\\', 'b'] ++ (escStr s ++ '"' :: rest)
                = '\\' :: 'b' :: (escStr s ++ '"' :: rest) from rfl]
          rw [parseJStrF]
          rw [escSplit_short _ _ (by decide)]
          simp [escShort, ih f' _ hf', h3]
        · by_cases h4 : c = Char.ofNat 9
          · simp only [if_neg h1, if_neg h2, if_neg h3, if_pos h4]
            rw [show ['\\', 't'] ++ (escStr s ++ '"' :: rest)
                  = '\\' :: 't' :: (escStr s ++ '"' :: rest) from rfl]
            rw [parseJStrF]
            rw [escSplit_short _ _ (by decide)]
            simp [escShort, ih f' _ hf', h4]
          · by_cases h5 : c = Char.ofNat 10
            · simp only [if_neg h1, if_neg h2, if_neg h3, if_neg h4, if_pos h5]
              rw [show ['\\', 'n'] ++ (escStr s ++ '"' :: rest)
                    = '\\' :: 'n' :: (escStr s ++ '"' :: rest) from rfl]
              rw [parseJStrF]
              rw [escSplit_short _ _ (by decide)]
              simp [escShort, ih f' _ hf', h5]
            · by_cases h6 : c = Char.ofNat 12
              · simp only [if_neg h1, if_neg h2, if_neg h3, if_neg h4, if_neg h5, if_pos h6]
                rw [show ['\\', 'f'] ++ (escStr s ++ '"' :: rest)
                      = '\\' :: 'f' :: (escStr s ++ '"' :: rest) from rfl]
                rw [parseJStrF]
                rw [escSplit_short _ _ (by decide)]
                simp [escShort, ih f' _ hf', h6]
              · by_cases h7 : c = Char.ofNat 13
                · simp only [if_neg h1, if_neg h2, if_neg h3, if_neg h4, if_neg h5, if_neg h6,
                    if_pos h7]
                  rw [show ['\\', 'r'] ++ (escStr s ++ '"' :: rest)
                        = '\\' :: 'r' :: (escStr s ++ '"' :: rest) from rfl]
                  rw [parseJStrF]
                  rw [escSplit_short _ _ (by decide)]
                  simp [escShort, ih f' _ hf', h7]
                · by_cases h8 : c.toNat < 32
                  · simp only [if_neg h1, if_neg h2, if_neg h3, if_neg h4, if_neg h5, if_neg h6,
                      if_neg h7, if_pos h8]
                    rw [show ['\\', 'u', '0', '0', hexChar (c.toNat / 16), hexChar (c.toNat % 16)]
                          ++ (escStr s ++ '"' :: rest)
                          = '\\' :: 'u' :: '0' :: '0' :: hexChar (c.toNat / 16)
                            :: hexChar (c.toNat % 16) :: (escStr s ++ '"' :: rest) from rfl]
                    rw [parseJStrF]
                    rw [escSplit_u]
                    have hdiv : c.toNat / 16 < 16 := by omega
                    have hmod : c.toNat % 16 < 16 := by omega
                    rw [show hexVal '0' = some 0 from by decide]
                    rw [hexVal_hexChar hdiv, hexVal_hexChar hmod]
                    have hv : ((0 * 16 + 0) * 16 + c.toNat / 16) * 16 + c.toNat % 16
                        = c.toNat := by omega
                    simp only [Option.some_bind, ih f' _ hf', Option.map_some']
                    rw [hv, Char.ofNat_toNat]
                    simp
                  · simp only [if_neg h1, if_neg h2, if_neg h3, if_neg h4, if_neg h5, if_neg h6,
                      if_neg h7, if_neg h8]
                    rw [show [c] ++ (escStr s ++ '"' :: rest)
                          = c :: (escStr s ++ '"' :: rest) from rfl]
                    rw [parseJStrF]
                    simp [ih f' _ hf', h1, h2]

/-- Strip an expected literal character sequence, returning the rest. -/
def stripPrefixCh : List Char → List Char → Option (List Char)
  | [], cs => some cs
  | _ :: _, [] => none
  | p :: ps, c :: cs => if p = c then stripPrefixCh ps cs else none

theorem stripPrefixCh_append (p : List Char) :
    ∀ rest, stripPrefixCh p (p ++ rest) = some rest := by
  induction p with
  | nil => intro rest; rfl
  | cons c cs ih => intro rest; simp [stripPrefixCh, ih]

/-! ### JSON.stringify -/

mutual
/-- `JSON.stringify` (minimal form, no whitespace), producing characters. -/
def stringifyV : JSVal → List Char
  | .vnull => ['n', 'u', 'l', 'l']
  | .vbool true => ['t', 'r', 'u', 'e']
  | .vbool false => ['f', 'a', 'l', 's', 'e']
  | .vnum n => intChars n
  | .vstr s => quoteStr s
  | .varr xs => '[' :: stringifyElems xs ++ [']']
  | .vobj fs => '{' :: stringifyMembs fs ++ ['}']
/-- Comma-separated array elements. -/
def stringifyElems : List JSVal → List Char
  | [] => []
  | [x] => stringifyV x
  | x :: y :: ys => stringifyV x ++ ',' :: stringifyElems (y :: ys)
/-- Comma-separated `"key":value` object members. -/
def stringifyMembs : List (String × JSVal) → List Char
  | [] => []
  | [(k, v)] => quoteStr k ++ ':' :: stringifyV v
  | (k, v) :: f :: fs => quoteStr k ++ ':' :: stringifyV v ++ ',' :: stringifyMembs (f :: fs)
end

/-- `JSON.stringify` returning a string. -/
def stringifyJSON (v : JSVal) : String := String.mk (stringifyV v)

/-! ### JSON.parse

A fuelled recursive-descent parser.  The three mutually recursive
productions (value, array tail, object tail) are folded into one function
over a mode marker so that recursion is structural on the fuel and the
kernel can evaluate it. -/

inductive PMode where
  | pval
  | pelems
  | pmembs

inductive POut where
  | pv (v : JSVal)
  | pl (vs : List JSVal)
  | pm (fs : List (String × JSVal))

/-- Bool test that a character list starts with a given character. -/
def startsWith (c : Char) : List Char → Bool
  | x :: _ => x == c
  | [] => false

/-- Rewrap a parsed element list as an array value. -/
def arrOut : POut × List Char → Option (POut × List Char)
  | (.pl vs, r) => some (.pv (.varr vs), r)
  | _ => none

/-- Rewrap a parsed member list as an object value. -/
def objOut : POut × List Char → Option (POut × List Char)
  | (.pm fs, r) => some (.pv (.vobj fs), r)
  | _ => none

def parseF : Nat → PMode → List Char → Option (POut × List Char)
  | 0, _, _ => none
  | _ + 1, .pval, [] => none
  | f + 1, .pval, c :: cs' =>
    if c = 'n' then (stripPrefixCh ['u', 'l', 'l'] cs').map (fun r => (.pv .vnull, r))
    else if c = 't' then
      (stripPrefixCh ['r', 'u', 'e'] cs').map (fun r => (.pv (.vbool true), r))
    else if c = 'f' then
      (stripPrefixCh ['a', 'l', 's', 'e'] cs').map (fun r => (.pv (.vbool false), r))
    else if c = '"' then
      (parseJStrF cs'.length cs').map (fun p => (.pv (.vstr (String.mk p.1)), p.2))
    else if c = '[' then
      if startsWith ']' cs' then some (.pv (.varr []), cs'.tail)
      else (parseF f .pelems cs').bind arrOut
    else if c = '{' then
      if startsWith '}' cs' then some (.pv (.vobj []), cs'.tail)
      else (parseF f .pmembs cs').bind objOut
    else (parseIntChars (c :: cs')).map (fun p => (.pv (.vnum p.1), p.2))
  | f + 1, .pelems, cs =>
    match parseF f .pval cs with
    | some (.pv v, ']' :: r') => some (.pl [v], r')
    | some (.pv v, ',' :: r') =>
      match parseF f .pelems r' with
      | some (.pl vs, r'') => some (.pl (v :: vs), r'')
      | _ => none
    | _ => none
  | f + 1, .pmembs, '"' :: cs' =>
    match parseJStrF cs'.length cs' with
    | some (k, ':' :: r') =>
      match parseF f .pval r' with
      | some (.pv v, '}' :: r3) => some (.pm [(String.mk k, v)], r3)
      | some (.pv v, ',' :: r3) =>
        match parseF f .pmembs r3 with
        | some (.pm fs, r4) => some (.pm ((String.mk k, v) :: fs), r4)
        | _ => none
      | _ => none
    | _ => none
  | _ + 1, .pmembs, _ => none

/-- `JSON.parse`: parse a complete JSON text (throws, i.e. `none`, on
anything else).  The fuel is sufficient for any input produced by
`stringifyJSON`. -/
def parseJSON (s : String) : Option JSVal :=
  match parseF (s.data.length + 1) .pval s.data with
  | some (.pv v, []) => some v
  | _ => none

/-! ### Round trip: `parseJSON (stringifyJSON v) = some v` -/

mutual
/-- Fuel needed by `parseF` to parse the serialization of a value. -/
def jfuel : JSVal → Nat
  | .varr xs => 1 + jfuelE xs
  | .vobj fs => 1 + jfuelM fs
  | _ => 1
def jfuelE : List JSVal → Nat
  | [] => 0
  | x :: xs => 1 + jfuel x + jfuelE xs
def jfuelM : List (String × JSVal) → Nat
  | [] => 0
  | (_, v) :: fs => 1 + jfuel v + jfuelM fs
end

theorem jfuel_pos (v : JSVal) : 1 ≤ jfuel v := by
  cases v <;> simp [jfuel]

theorem escStr_length (s : List Char) : s.length ≤ (escStr s).length := by
  induction s with
  | nil => simp [escStr]
  | cons c cs ih =>
    rw [escStr_cons]
    have h1 : 1 ≤ (escChar c).length := by
      unfold escChar
      repeat' split
      all_goals simp
    simp only [List.length_append, List.length_cons]
    omega

/-- The first character of a serialized number: a minus sign or digit. -/
theorem intChars_head (n : Int) :
    ∃ c t, intChars n = c :: t ∧ (c = '-' ∨ isDigitCh c = true) := by
  unfold intChars
  split
  · exact ⟨'-', _, rfl, Or.inl rfl⟩
  · rw [natDigits_eq]
    obtain ⟨c, cs, hcons⟩ : ∃ c cs, digitsBE n.toNat = c :: cs := by
      cases h : digitsBE n.toNat with
      | nil => exact absurd h (digitsBE_ne_nil _)
      | cons c cs => exact ⟨c, cs, rfl⟩
    refine ⟨c, cs, hcons, Or.inr ?_⟩
    have := digitsBE_all_digits n.toNat
    rw [hcons] at this
    exact this c (by simp)

/-- Serialized values are nonempty and never start with a closing
bracket, closing brace, comma or colon. -/
theorem stringifyV_head (v : JSVal) :
    ∃ c t, stringifyV v = c :: t ∧ c ≠ ']' ∧ c ≠ '}' := by
  cases v with
  | vnull => exact ⟨'n', _, rfl, by decide, by decide⟩
  | vbool b => cases b with
    | true => exact ⟨'t', _, rfl, by decide, by decide⟩
    | false => exact ⟨'f', _, rfl, by decide, by decide⟩
  | vnum n =>
    obtain ⟨c, t, hct, hc⟩ := intChars_head n
    refine ⟨c, t, by rw [stringifyV, hct], ?_, ?_⟩
    · rcases hc with h | h
      · subst h; decide
      · intro hcc; subst hcc; exact absurd h (by decide)
    · rcases hc with h | h
      · subst h; decide
      · intro hcc; subst hcc; exact absurd h (by decide)
  | vstr s => exact ⟨'"', _, rfl, by decide, by decide⟩
  | varr xs => cases xs with
    | nil => exact ⟨'[', _, rfl, by decide, by decide⟩
    | cons x xs => exact ⟨'[', _, rfl, by decide, by decide⟩
  | vobj fs => cases fs with
    | nil => exact ⟨'{', _, rfl, by decide, by decide⟩
    | cons f fs => exact ⟨'{', _, rfl, by decide, by decide⟩

theorem numHead_ne {c : Char} (hc : c = '-' ∨ isDigitCh c = true) :
    c ≠ 'n' ∧ c ≠ 't' ∧ c ≠ 'f' ∧ c ≠ '"' ∧ c ≠ '[' ∧ c ≠ '{' := by
  rcases hc with h | h
  · subst h
    exact ⟨by decide, by decide, by decide, by decide, by decide, by decide⟩
  · refine ⟨?_, ?_, ?_, ?_, ?_, ?_⟩ <;>
      { intro hcc; subst hcc; exact absurd h (by decide) }

theorem stringifyElems_cons (x : JSVal) (xs : List JSVal) :
    ∃ t, stringifyElems (x :: xs) = stringifyV x ++ t := by
  cases xs with
  | nil => exact ⟨[], by simp [stringifyElems]⟩
  | cons y ys => exact ⟨',' :: stringifyElems (y :: ys), rfl⟩

theorem numSafe_rb (r : List Char) : numSafe (']' :: r) := rfl

theorem numSafe_cb (r : List Char) : numSafe ('}' :: r) := rfl

theorem numSafe_comma (r : List Char) : numSafe (',' :: r) := rfl

theorem parseF_round (f : Nat) :
    (∀ v rest, jfuel v ≤ f → numSafe rest →
       parseF f .pval (stringifyV v ++ rest) = some (.pv v, rest)) ∧
    (∀ l rest, l ≠ [] → jfuelE l ≤ f →
       parseF f .pelems (stringifyElems l ++ ']' :: rest) = some (.pl l, rest)) ∧
    (∀ l rest, l ≠ [] → jfuelM l ≤ f →
       parseF f .pmembs (stringifyMembs l ++ '}' :: rest) = some (.pm l, rest)) := by
  induction f with
  | zero =>
    refine ⟨?_, ?_, ?_⟩
    · intro v rest hf _
      have := jfuel_pos v
      omega
    · intro l rest hl hf
      cases l with
      | nil => exact absurd rfl hl
      | cons x xs =>
        simp only [jfuelE] at hf
        omega
    · intro l rest hl hf
      cases l with
      | nil => exact absurd rfl hl
      | cons p fs =>
        obtain ⟨k, v⟩ := p
        simp only [jfuelM] at hf
        omega
  | succ f ih =>
    obtain ⟨ih1, ih2, ih3⟩ := ih
    have hval : ∀ v rest, jfuel v ≤ f + 1 → numSafe rest →
        parseF (f + 1) .pval (stringifyV v ++ rest) = some (.pv v, rest) := by
      intro v rest hf hrest
      cases v with
      | vnull => rfl
      | vbool b => cases b <;> rfl
      | vnum n =>
        obtain ⟨c, t, hct, hc⟩ := intChars_head n
        obtain ⟨hn, ht, hf2, hq, hlb, hob⟩ := numHead_ne hc
        have hsv : stringifyV (.vnum n) = c :: t := by rw [stringifyV, hct]
        rw [hsv, List.cons_append, parseF]
        rw [if_neg hn, if_neg ht, if_neg hf2, if_neg hq, if_neg hlb, if_neg hob]
        rw [← List.cons_append, ← hct]
        rw [parseIntChars_intChars n rest hrest]
        rfl
      | vstr s =>
        have hsv : stringifyV (.vstr s) ++ rest
            = '"' :: (escStr s.data ++ '"' :: rest) := by
          show quoteStr s ++ rest = _
          rw [quoteStr]
          simp [List.append_assoc]
        rw [hsv, parseF]
        rw [if_neg (by decide), if_neg (by decide), if_neg (by decide), if_pos rfl]
        have hlen : s.data.length < (escStr s.data ++ '"' :: rest).length := by
          have := escStr_length s.data
          simp only [List.length_append, List.length_cons]
          omega
        rw [parseJStrF_escStr s.data _ rest hlen]
        rfl
      | varr xs =>
        cases xs with
        | nil => rfl
        | cons x xs' =>
          have hsv : stringifyV (.varr (x :: xs')) ++ rest
              = '[' :: (stringifyElems (x :: xs') ++ ']' :: rest) := by
            rw [stringifyV]
            simp [List.append_assoc]
          rw [hsv, parseF]
          rw [if_neg (by decide), if_neg (by decide), if_neg (by decide),
            if_neg (by decide), if_pos rfl]
          obtain ⟨tl, htl⟩ := stringifyElems_cons x xs'
          obtain ⟨c0, t0, hc0, hne1, _⟩ := stringifyV_head x
          have hsw : startsWith ']' (stringifyElems (x :: xs') ++ ']' :: rest) = false := by
            rw [htl, hc0]
            simp only [List.cons_append, List.append_assoc, startsWith]
            simp [hne1]
          rw [if_neg (by simp [hsw])]
          have hfe : jfuelE (x :: xs') ≤ f := by
            simp only [jfuel] at hf
            omega
          rw [ih2 (x :: xs') rest (by simp) hfe]
          rfl
      | vobj fs =>
        cases fs with
        | nil => rfl
        | cons p fs' =>
          obtain ⟨k, v'⟩ := p
          have hsv : stringifyV (.vobj ((k, v') :: fs')) ++ rest
              = '{' :: (stringifyMembs ((k, v') :: fs') ++ '}' :: rest) := by
            rw [stringifyV]
            simp [List.append_assoc]
          rw [hsv, parseF]
          rw [if_neg (by decide), if_neg (by decide), if_neg (by decide),
            if_neg (by decide), if_neg (by decide), if_pos rfl]
          have hsw : startsWith '}' (stringifyMembs ((k, v') :: fs') ++ '}' :: rest)
              = false := by
            cases fs' with
            | nil =>
              show startsWith '}' ((quoteStr k ++ ':' :: stringifyV v') ++ '}' :: rest) = false
              rw [quoteStr]
              simp [startsWith]
            | cons q fs'' =>
              show startsWith '}'
                ((quoteStr k ++ ':' :: stringifyV v' ++ ',' :: stringifyMembs (q :: fs''))
                  ++ '}' :: rest) = false
              rw [quoteStr]
              simp [startsWith]
          rw [if_neg (by simp [hsw])]
          have hfm : jfuelM ((k, v') :: fs') ≤ f := by
            simp only [jfuel] at hf
            omega
          rw [ih3 ((k, v') :: fs') rest (by simp) hfm]
          rfl
    refine ⟨hval, ?_, ?_⟩
    · intro l rest hl hf
      cases l with
      | nil => exact absurd rfl hl
      | cons x xs =>
        simp only [jfuelE] at hf
        cases xs with
        | nil =>
          have hse : stringifyElems [x] ++ ']' :: rest = stringifyV x ++ ']' :: rest := by
            simp [stringifyElems]
          rw [parseF, hse]
          simp only [ih1 x (']' :: rest) (by omega) (numSafe_rb rest)]
        | cons y ys =>
          have hse : stringifyElems (x :: y :: ys) ++ ']' :: rest
              = stringifyV x ++ ',' :: (stringifyElems (y :: ys) ++ ']' :: rest) := by
            rw [stringifyElems]
            simp [List.append_assoc]
          rw [parseF, hse]
          simp only [ih1 x _ (by omega) (numSafe_comma _)]
          have hfe : jfuelE (y :: ys) ≤ f := by
            simp only [jfuelE] at hf ⊢
            omega
          simp only [ih2 (y :: ys) rest (by simp) hfe]
    · intro l rest hl hf
      cases l with
      | nil => exact absurd rfl hl
      | cons p fs =>
        obtain ⟨k, v⟩ := p
        simp only [jfuelM] at hf
        cases fs with
        | nil =>
          have hsm : stringifyMembs [(k, v)] ++ '}' :: rest
              = '"' :: (escStr k.data ++ '"' :: (':' :: (stringifyV v ++ '}' :: rest))) := by
            show (quoteStr k ++ ':' :: stringifyV v) ++ '}' :: rest = _
            rw [quoteStr]
            simp [List.append_assoc]
          rw [hsm, parseF]
          have hlen : k.data.length
              < (escStr k.data ++ '"' :: (':' :: (stringifyV v ++ '}' :: rest))).length := by
            have := escStr_length k.data
            simp only [List.length_append, List.length_cons]
            omega
          simp only [parseJStrF_escStr k.data _ _ hlen]
          simp only [ih1 v ('}' :: rest) (by omega) (numSafe_cb rest)]
        | cons q fs' =>
          have hsm : stringifyMembs ((k, v) :: q :: fs') ++ '}' :: rest
              = '"' :: (escStr k.data ++ '"' :: (':' :: (stringifyV v
                  ++ ',' :: (stringifyMembs (q :: fs') ++ '}' :: rest)))) := by
            show (quoteStr k ++ ':' :: stringifyV v ++ ',' :: stringifyMembs (q :: fs'))
                ++ '}' :: rest = _
            rw [quoteStr]
            simp [List.append_assoc]
          rw [hsm, parseF]
          have hlen : k.data.length < (escStr k.data ++ '"' :: (':' :: (stringifyV v
              ++ ',' :: (stringifyMembs (q :: fs') ++ '}' :: rest)))).length := by
            have := escStr_length k.data
            simp only [List.length_append, List.length_cons]
            omega
          simp only [parseJStrF_escStr k.data _ _ hlen]
          simp only [ih1 v _ (by omega) (numSafe_comma _)]
          have hfm : jfuelM (q :: fs') ≤ f := by
            simp only [jfuelM] at hf ⊢
            omega
          simp only [ih3 (q :: fs') rest (by simp) hfm]

theorem intChars_ne_nil (n : Int) : intChars n ≠ [] := by
  obtain ⟨c, t, hct, _⟩ := intChars_head n
  simp [hct]

mutual
theorem jfuel_le_len : ∀ v : JSVal, jfuel v ≤ (stringifyV v).length
  | .vnull => by simp [jfuel, stringifyV]
  | .vbool true => by simp [jfuel, stringifyV]
  | .vbool false => by simp [jfuel, stringifyV]
  | .vnum n => by
    have := intChars_ne_nil n
    have hlen : 1 ≤ (intChars n).length := by
      cases h : intChars n with
      | nil => exact absurd h this
      | cons c t => simp
    simpa [jfuel, stringifyV] using hlen
  | .vstr s => by simp [jfuel, stringifyV, quoteStr]
  | .varr xs => by
    have h := jfuelE_le_len xs
    simp only [jfuel, stringifyV, List.length_cons, List.length_append]
    simp at h ⊢
    omega
  | .vobj fs => by
    have h := jfuelM_le_len fs
    simp only [jfuel, stringifyV, List.length_cons, List.length_append]
    simp at h ⊢
    omega
theorem jfuelE_le_len : ∀ l : List JSVal, jfuelE l ≤ (stringifyElems l).length + 1
  | [] => by simp [jfuelE, stringifyElems]
  | [x] => by
    have h := jfuel_le_len x
    simp only [jfuelE, stringifyElems]
    omega
  | x :: y :: ys => by
    have h1 := jfuel_le_len x
    have h2 := jfuelE_le_len (y :: ys)
    simp only [jfuelE, stringifyElems, List.length_append, List.length_cons] at h2 ⊢
    omega
theorem jfuelM_le_len : ∀ l : List (String × JSVal), jfuelM l ≤ (stringifyMembs l).length + 1
  | [] => by simp [jfuelM, stringifyMembs]
  | [(k, v)] => by
    have h := jfuel_le_len v
    simp only [jfuelM, stringifyMembs, List.length_append, List.length_cons]
    omega
  | (k, v) :: q :: fs => by
    have h1 := jfuel_le_len v
    have h2 := jfuelM_le_len (q :: fs)
    simp only [jfuelM, stringifyMembs, List.length_append, List.length_cons] at h2 ⊢
    omega
end

/-- JSON round trip: parsing a serialized value recovers the value. -/
theorem parseJSON_stringifyJSON (v : JSVal) : parseJSON (stringifyJSON v) = some v := by
  unfold parseJSON stringifyJSON
  have hdata : (String.mk (stringifyV v)).data = stringifyV v := rfl
  rw [hdata]
  have hfuel : jfuel v ≤ (stringifyV v).length + 1 := by
    have := jfuel_le_len v
    omega
  have h := (parseF_round ((stringifyV v).length + 1)).1 v [] hfuel trivial
  rw [List.append_nil] at h
  rw [h]

/-! ### CryptoJS AES model

The source calls `CryptoJS.AES.encrypt(value, key).toString()` and
`CryptoJS.AES.decrypt(value, key).toString(CryptoJS.enc.Utf8)`.  The
cipher is external; it is modelled as an abstract injective symmetric
scheme: decryption with the right key inverts encryption, and decryption
of a non-ciphertext fails (the `try/catch` case in the source). -/

def aesEncrypt (key s : String) : String :=
  String.mk ('A' :: 'E' :: 'S' :: '[' :: (key.data ++ ']' :: s.data))

def aesDecrypt (key c : String) : Option String :=
  (stripPrefixCh ('A' :: 'E' :: 'S' :: '[' :: (key.data ++ [']'])) c.data).map String.mk

theorem aesDecrypt_aesEncrypt (key s : String) :
    aesDecrypt key (aesEncrypt key s) = some s := by
  unfold aesDecrypt aesEncrypt
  have h : ('A' :: 'E' :: 'S' :: '[' :: (key.data ++ ']' :: s.data))
      = ('A' :: 'E' :: 'S' :: '[' :: (key.data ++ [']'])) ++ s.data := by
    simp
  rw [show (String.mk ('A' :: 'E' :: 'S' :: '[' :: (key.data ++ ']' :: s.data))).data
        = 'A' :: 'E' :: 'S' :: '[' :: (key.data ++ ']' :: s.data) from rfl]
  rw [h, stripPrefixCh_append]
  rfl

/-! ### Schema model (`ColumnDefinition`, `TableSchema` from src/index.ts) -/

inductive ColumnType where
  | text
  | integer
  | real
  | blob
  | nullType
  | datetime

/-- `foreignKey` clause of a column definition (DDL-only, carried for
completeness). -/
structure ForeignKeyDef where
  table : String
  column : String
  onDelete : Option String := none
  onUpdate : Option String := none

/-- `ColumnDefinition` from src/index.ts (`default` is spelled `dflt`). -/
structure ColumnDefinition where
  type : ColumnType
  primary : Bool := false
  unique : Bool := false
  dflt : Option JSVal := none
  notNull : Bool := false
  encrypted : Bool := false
  index : Bool := false
  json : Bool := false
  softDelete : Bool := false
  foreignKey : Option ForeignKeyDef := none

/-- `TableSchema`: ordered column name / definition pairs (JS object
entries in insertion order, names unique). -/
def TableSchema := List (String × ColumnDefinition)

/-- Error taxonomy of the data-access layer. -/
inductive DBErr where
  | schemaMissing (table : String)
  | validation
  | codec (op : String)
  | storage (msg : String)

/-- A zod validator: `parse` on full payloads, `partial().parse` on
partial payloads (modelled as accept/reject predicates). -/
structure Validator where
  parseFull : List (String × JSVal) → Bool
  parsePart : List (String × JSVal) → Bool

/-! ### FieldCodec: `processValue` / `unprocessValue` -/

/-- `JSON.parse` lifted to the codec's error type (`SyntaxError` as an
uncaught throw). -/
def jsonParseExc (s : String) : Except DBErr JSVal :=
  match parseJSON s with
  | some v => .ok v
  | none => .error (.codec "JSON.parse")

/-- The json encode branch: `typeof value === 'string' ? JSON.parse(value)
: JSON.stringify(value)`. -/
def jsonEncodeVal : JSVal → Except DBErr JSVal
  | .vstr s => jsonParseExc s
  | v => .ok (.vstr (stringifyJSON v))

/-- The json decode branch: `typeof value === 'string' ? JSON.parse(value)
: value`. -/
def jsonDecodeVal : JSVal → Except DBErr JSVal
  | .vstr s => jsonParseExc s
  | v => .ok v

/-- `this.encryptionKey ? CryptoJS.AES.encrypt(value, key).toString() :
value`. -/
def encryptStr (key : Option String) (s : String) : String :=
  match key with
  | some k => aesEncrypt k s
  | none => s

/-- The guarded decryption with its `try/catch`: a failed decryption
returns the raw value. -/
def decryptStr (key : Option String) (s : String) : String :=
  match key with
  | some k => (aesDecrypt k s).getD s
  | none => s

def encryptVal (key : Option String) : JSVal → JSVal
  | .vstr s => .vstr (encryptStr key s)
  | v => v

def decryptVal (key : Option String) : JSVal → JSVal
  | .vstr s => .vstr (decryptStr key s)
  | v => v

/-- `processValue` (encode path) from src/index.ts lines 220-232:
`if (config.json && value !== null) return typeof value === 'string' ?
JSON.parse(value) : JSON.stringify(value);` then
`if (config.encrypted && typeof value === 'string') return
this.encryptionKey ? encrypt(value) : value;` then `return value`.
A `JSON.parse` failure is an uncaught throw, hence `Except.error`. -/
def processValue (encryptionKey : Option String) (value : JSVal)
    (config : ColumnDefinition) : Except DBErr JSVal :=
  if config.json && !(isNullV value) then jsonEncodeVal value
  else if config.encrypted && isStr value then .ok (encryptVal encryptionKey value)
  else .ok value

/-- `unprocessValue` (decode path) from src/index.ts lines 234-249:
`if (config.json && value !== null) return typeof value === 'string' ?
JSON.parse(value) : value;` (parse failure is an uncaught throw), then
`if (config.encrypted && typeof value === 'string' && this.encryptionKey)
try { return decrypt(value) } catch { return value }`, then
`return value`. -/
def unprocessValue (encryptionKey : Option String) (value : JSVal)
    (config : ColumnDefinition) : Except DBErr JSVal :=
  if config.json && !(isNullV value) then jsonDecodeVal value
  else if config.encrypted && isStr value then .ok (decryptVal encryptionKey value)
  else .ok value

/-! ### In-memory model of the SQLite store and the CRUD operations -/

/-- A database row: column name / stored value pairs. -/
def Row := List (String × JSVal)

/-- A physical table: its columns (from `createTable`) and rows. -/
structure TableStore where
  cols : List String
  rows : List Row

/-- State of one `GrokDB` instance: the in-memory schema registry and
validator map, the configured encryption key, the physical store of the
underlying engine, and the `migrations` ledger table (name column). -/
structure GrokDB where
  tables : List (String × TableSchema)
  validators : List (String × Validator)
  encryptionKey : Option String
  store : List (String × TableStore)
  migrations : List String

/-- SQL `=` comparison: NULL compares false against everything. -/
def sqlEq (a b : JSVal) : Bool :=
  if isNullV a || isNullV b then false else jvBeq a b

/-- A WHERE-clause conjunct as built by `find`: the injected
`deleted_at IS NULL` or an equality `col = ?`. -/
inductive Cond where
  | isNullC (col : String)
  | eqCol (col : String) (v : JSVal)

def condCol : Cond → String
  | .isNullC c => c
  | .eqCol c _ => c

def evalCond (r : Row) : Cond → Bool
  | .isNullC c =>
    match List.lookup c r with
    | some v => isNullV v
    | none => false
  | .eqCol c v =>
    match List.lookup c r with
    | some a => sqlEq a v
    | none => false

/-- Conjunctive equality predicate used by `update`/`delete` WHERE
clauses. -/
def matchesWhere (r : Row) (w : List (String × JSVal)) : Bool :=
  w.all (fun kv => evalCond r (.eqCol kv.1 kv.2))

/-- Apply a processed SET map to a row. -/
def applySet (r : Row) (sets : List (String × JSVal)) : Row :=
  r.map (fun kv =>
    match List.lookup kv.1 sets with
    | some v => (kv.1, v)
    | none => kv)

/-- Replace one table's contents in the store. -/
def storeSet (store : List (String × TableStore)) (t : String) (ts : TableStore) :
    List (String × TableStore) :=
  store.map (fun p => if p.1 = t then (t, ts) else p)

/-- The engine pads an inserted row to the table's full column list,
applying declared defaults and NULL for missing columns. -/
def padRow (cols : List String) (schema : TableSchema) (data : List (String × JSVal)) : Row :=
  cols.map (fun c => (c,
    match List.lookup c data with
    | some v => v
    | none =>
      match List.lookup c schema with
      | some cfg => cfg.dflt.getD .vnull
      | none => .vnull))

/-- Per-column encode of a payload (the `Object.entries(schema).forEach`
loop of `insert`/`update`): entries whose key has a column definition go
through `processValue`. -/
def processRow (key : Option String) (schema : TableSchema) :
    List (String × JSVal) → Except DBErr (List (String × JSVal))
  | [] => .ok []
  | (k, v) :: rest => do
    let v' ← match List.lookup k schema with
      | some cfg => processValue key v cfg
      | none => .ok v
    let rest' ← processRow key schema rest
    .ok ((k, v') :: rest')

/-- Per-column decode of a result row (the map at the end of `find`). -/
def unprocessRow (key : Option String) (schema : TableSchema) :
    Row → Except DBErr Row
  | [] => .ok []
  | (k, v) :: rest => do
    let v' ← match List.lookup k schema with
      | some cfg => unprocessValue key v cfg
      | none => .ok v
    let rest' ← unprocessRow key schema rest
    .ok ((k, v') :: rest')

def unprocessRows (key : Option String) (schema : TableSchema) :
    List Row → Except DBErr (List Row)
  | [] => .ok []
  | r :: rs => do
    let r' ← unprocessRow key schema r
    let rs' ← unprocessRows key schema rs
    .ok (r' :: rs')

/-! ### Query options, ordering, limit/offset -/

inductive OrderDir where
  | asc
  | desc

/-- `QueryOptions` from src/index.ts. -/
structure QueryOptions where
  limit : Option Nat := none
  offset : Option Nat := none
  includeDeleted : Bool := false
  orderBy : Option (String × OrderDir) := none

/-- Stable insertion sort (models the engine's ORDER BY; any stable sort
gives the same observable multiset and we only reason up to the claims'
needs). -/
def insertSorted {α : Type} (le : α → α → Bool) (x : α) : List α → List α
  | [] => [x]
  | y :: ys => if le x y then x :: y :: ys else y :: insertSorted le x ys

def sortBy {α : Type} (le : α → α → Bool) (l : List α) : List α :=
  l.foldr (insertSorted le) []

/-- SQLite-style cross-type ordering rank: NULL before numbers before
text before everything else. -/
def jvRank : JSVal → Nat
  | .vnull => 0
  | .vbool _ => 1
  | .vnum _ => 1
  | .vstr _ => 2
  | .varr _ => 3
  | .vobj _ => 3

def jvLe (a b : JSVal) : Bool :=
  if jvRank a = jvRank b then
    match a, b with
    | .vnum x, .vnum y => decide (x ≤ y)
    | .vstr x, .vstr y => decide (x ≤ y)
    | .vbool x, .vbool y => !x || y
    | _, _ => true
  else decide (jvRank a < jvRank b)

def rowLe (col : String) (dir : OrderDir) (r1 r2 : Row) : Bool :=
  let v1 := (List.lookup col r1).getD .vnull
  let v2 := (List.lookup col r2).getD .vnull
  match dir with
  | .asc => jvLe v1 v2
  | .desc => jvLe v2 v1

def applyOrderBy : Option (String × OrderDir) → List Row → List Row
  | none, rows => rows
  | some (col, dir), rows => sortBy (rowLe col dir) rows

/-- `LIMIT`/`OFFSET` clause construction from src/index.ts lines 313-318:
the limit clause is emitted only when `options.limit` is truthy, and the
offset clause only inside it when `options.offset` is truthy. -/
def applyLimitOffset (limit offset : Option Nat) (rows : List Row) : List Row :=
  match limit with
  | none => rows
  | some l =>
    if l = 0 then rows
    else
      match offset with
      | none => rows.take l
      | some o => if o = 0 then rows.take l else (rows.drop o).take l

/-! ### CRUD operations

Each operation returns the new state together with the list of event
topics it emitted (`<table>:insert|update|delete`); errors carry no state
change and no events, matching the synchronous throw in the source. -/

/-- `Object.entries(schema).some(([_, config]) => config.softDelete)`. -/
def hasSoftDelete (schema : TableSchema) : Bool :=
  schema.any (fun p => p.2.softDelete)

/-- `Object.entries(schema).find(([_, config]) => config.softDelete)?.[0]`. -/
def softDeleteColumn (schema : TableSchema) : Option String :=
  (schema.find? (fun p => p.2.softDelete)).map (fun p => p.1)

/-- `insert(table, data)` from src/index.ts lines 254-282.  Caveat: on
an empty payload the source builds `INSERT INTO t () VALUES ()` (lines
271-277) and `prepare` throws a SQLite syntax error; the model does not
replicate that prepare-time failure and instead inserts a
defaults-padded row, so success statements about `insert` must restrict
to nonempty payloads. -/
def insertOp (db : GrokDB) (table : String) (data : List (String × JSVal)) :
    Except DBErr (GrokDB × List String) := do
  let schema ← match List.lookup table db.tables with
    | some s => pure s
    | none => throw (.schemaMissing table)
  match List.lookup table db.validators with
  | some v => if v.parseFull data then pure () else throw .validation
  | none => pure ()
  let processed ← processRow db.encryptionKey schema data
  let ts ← match List.lookup table db.store with
    | some t => pure t
    | none => throw (.storage "no such table")
  if processed.all (fun kv => ts.cols.contains kv.1) then
    let ts' : TableStore := { ts with rows := ts.rows ++ [padRow ts.cols schema processed] }
    pure ({ db with store := storeSet db.store table ts' }, [table ++ ":insert"])
  else throw (.storage "no such column")

/-- `update(table, data, where)` from src/index.ts lines 345-377.
Caveat: on an empty SET or WHERE map the source interpolates an empty
clause into `UPDATE t SET ... WHERE ...` (lines 362-372) and `prepare`
throws a SQLite syntax error; the model does not replicate that
prepare-time failure (an empty WHERE here updates every row), so
success statements about `update` must restrict to nonempty maps. -/
def updateOp (db : GrokDB) (table : String) (data : List (String × JSVal))
    (w : List (String × JSVal)) : Except DBErr (GrokDB × List String) := do
  let schema ← match List.lookup table db.tables with
    | some s => pure s
    | none => throw (.schemaMissing table)
  match List.lookup table db.validators with
  | some v => if v.parsePart data then pure () else throw .validation
  | none => pure ()
  let processed ← processRow db.encryptionKey schema data
  let ts ← match List.lookup table db.store with
    | some t => pure t
    | none => throw (.storage "no such table")
  if processed.all (fun kv => ts.cols.contains kv.1)
      && w.all (fun kv => ts.cols.contains kv.1) then
    let ts' : TableStore := { ts with rows := ts.rows.map (fun r =>
      if matchesWhere r w then applySet r processed else r) }
    pure ({ db with store := storeSet db.store table ts' }, [table ++ ":update"])
  else throw (.storage "no such column")

/-- `delete(table, where)` from src/index.ts lines 382-402; `now` is the
value of `new Date().toISOString()`.  Caveat: on an empty WHERE map the
source builds `DELETE FROM t WHERE ` (lines 393-397) — or, via the
soft-delete delegation to `update`, `UPDATE t SET c = ? WHERE ` — and
`prepare` throws a SQLite syntax error; the model does not replicate
that prepare-time failure, so success statements about `delete` must
restrict to nonempty WHERE maps. -/
def deleteOp (db : GrokDB) (table : String) (w : List (String × JSVal))
    (now : String) : Except DBErr (GrokDB × List String) := do
  let schema ← match List.lookup table db.tables with
    | some s => pure s
    | none => throw (.schemaMissing table)
  match softDeleteColumn schema with
  | some c => updateOp db table [(c, .vstr now)] w
  | none => do
    let ts ← match List.lookup table db.store with
      | some t => pure t
      | none => throw (.storage "no such table")
    if w.all (fun kv => ts.cols.contains kv.1) then
      let ts' : TableStore := { ts with rows := ts.rows.filter (fun r => !(matchesWhere r w)) }
      pure ({ db with store := storeSet db.store table ts' }, [table ++ ":delete"])
    else throw (.storage "no such column")

/-- `find(table, where, options)` from src/index.ts lines 287-332. -/
def findOp (db : GrokDB) (table : String) (w : List (String × JSVal))
    (opts : QueryOptions) : Except DBErr (List Row) := do
  let schema ← match List.lookup table db.tables with
    | some s => pure s
    | none => throw (.schemaMissing table)
  let conds : List Cond :=
    (if hasSoftDelete schema && !opts.includeDeleted
      then [.isNullC "deleted_at"] else [])
    ++ w.map (fun kv => .eqCol kv.1 kv.2)
  let ts ← match List.lookup table db.store with
    | some t => pure t
    | none => throw (.storage "no such table")
  if conds.all (fun c => ts.cols.contains (condCol c))
      && (match opts.orderBy with
          | some (col, _) => ts.cols.contains col
          | none => true) then
    let rows := ts.rows.filter (fun r => conds.all (evalCond r))
    let rows := applyOrderBy opts.orderBy rows
    let rows := applyLimitOffset opts.limit opts.offset rows
    unprocessRows db.encryptionKey schema rows
  else throw (.storage "no such column")

/-! ### MigrationRunner (`migrate` from src/index.ts lines 118-150)

Migration units come from the external loader as `{name, up, down}`
descriptors; `migrate` sorts the file names and walks them in order,
consulting the `migrations` ledger.  The trace records each up/down
invocation and each ledger write in order. -/

structure MigrationUnit where
  name : String
  up : GrokDB → GrokDB
  down : GrokDB → GrokDB

inductive MigAction where
  | upRun (name : String)
  | ledgerInsert (name : String)
  | downRun (name : String)
  | ledgerDelete (name : String)
deriving DecidableEq

inductive MigDirection where
  | up
  | down

/-- One loop iteration of `migrate`. -/
def migrateStep (dir : MigDirection) :
    GrokDB × List MigAction → MigrationUnit → GrokDB × List MigAction
  | (db, trace), u =>
    match dir with
    | .up =>
      if db.migrations.contains u.name then (db, trace)
      else
        let db' := u.up db
        ({ db' with migrations := db'.migrations ++ [u.name] },
          trace ++ [.upRun u.name, .ledgerInsert u.name])
    | .down =>
      if db.migrations.contains u.name then
        let db' := u.down db
        ({ db' with migrations := db'.migrations.filter (fun n => n ≠ u.name) },
          trace ++ [.downRun u.name, .ledgerDelete u.name])
      else (db, trace)

/-- `migrate(direction)`: sort the available migration files by name
(`readdirSync(...).sort()`) and fold the per-unit step over them. -/
def migrate (dir : MigDirection) (files : List MigrationUnit) (db : GrokDB) :
    GrokDB × List MigAction :=
  (sortBy (fun a b => decide (a.name ≤ b.name)) files).foldl (migrateStep dir) (db, [])

/-! ## Claims

Each claim from the specification gets one theorem (plus a witness for
hypothesised theorems, and a counterexample where the claim fails on the
code). -/

/-! ### Codec fixtures -/

/-- A column with both `json` and `encrypted` set. -/
def cfgJsonEnc : ColumnDefinition := { type := .text, json := true, encrypted := true }

/-- A plain `json` column. -/
def cfgJson : ColumnDefinition := { type := .text, json := true }

/-- A plain `encrypted` column. -/
def cfgEnc : ColumnDefinition := { type := .text, encrypted := true }

/-- Nested-object payload used by the codec counterexamples/witnesses. -/
def vNested : JSVal := .vobj [("theme", .vstr "dark"), ("tags", .varr [.vnum 1, .vnum 2])]

/-- Modelled from the spec: the contract "order is encode-json-then-encrypt
so ciphertext is stored, not readable JSON" — serialize, then encrypt the
serialized text with the configured key. -/
def specEncodeJsonThenEncrypt (key : String) (v : JSVal) : JSVal :=
  .vstr (aesEncrypt key (stringifyJSON v))

/-- Claim C2, counterexample: on a column with `json` and `encrypted` both
set and key "k", encoding the nested object stores its readable JSON
serialization, not the json-then-encrypt ciphertext the claim requires,
and decoding JSON-parses without decrypting. -/
theorem C2_counterexample :
    processValue (some "k") vNested cfgJsonEnc = .ok (.vstr (stringifyJSON vNested)) ∧
    specEncodeJsonThenEncrypt "k" vNested
      = .vstr (aesEncrypt "k" (stringifyJSON vNested)) ∧
    stringifyJSON vNested ≠ aesEncrypt "k" (stringifyJSON vNested) ∧
    unprocessValue (some "k") (.vstr (stringifyJSON vNested)) cfgJsonEnc = .ok vNested := by
  refine ⟨rfl, rfl, by decide, rfl⟩

/-- Claim C2 (amended): when a column definition has `json = true`, the
json branch returns early, so the `encrypted` flag has no effect on either
encode or decode, and encode of a non-string non-null value stores its
readable JSON serialization (no ciphertext). -/
theorem C2_json_shortcircuits_encryption (cfg : ColumnDefinition) (key : Option String)
    (v : JSVal) (hjson : cfg.json = true) :
    processValue key v cfg = processValue key v { cfg with encrypted := false } ∧
    unprocessValue key v cfg = unprocessValue key v { cfg with encrypted := false } ∧
    (isStr v = false → isNullV v = false →
      processValue key v cfg = .ok (.vstr (stringifyJSON v))) := by
  refine ⟨?_, ?_, ?_⟩
  · cases v <;> simp [processValue, hjson, isStr, isNullV]
  · cases v <;> simp [unprocessValue, hjson, isStr, isNullV]
  · intro hs hn
    cases v with
    | vnull => simp [isNullV] at hn
    | vstr s => simp [isStr] at hs
    | vbool b => simp [processValue, hjson, isNullV]; rfl
    | vnum n => simp [processValue, hjson, isNullV]; rfl
    | varr xs => simp [processValue, hjson, isNullV]; rfl
    | vobj fs => simp [processValue, hjson, isNullV]; rfl

/-- Claim C2, witness: the amended theorem at the both-flags column, key
"k", and the nested object. -/
theorem C2_witness :
    cfgJsonEnc.json = true ∧
    (processValue (some "k") vNested cfgJsonEnc
        = processValue (some "k") vNested { cfgJsonEnc with encrypted := false } ∧
      unprocessValue (some "k") vNested cfgJsonEnc
        = unprocessValue (some "k") vNested { cfgJsonEnc with encrypted := false } ∧
      (isStr vNested = false → isNullV vNested = false →
        processValue (some "k") vNested cfgJsonEnc
          = .ok (.vstr (stringifyJSON vNested)))) :=
  ⟨rfl, C2_json_shortcircuits_encryption cfgJsonEnc (some "k") vNested rfl⟩

/-- Claim C3, counterexample: decoding the non-JSON string "hello" on a
json column raises (the `JSON.parse` throw in `unprocessValue` is not
caught), rather than returning the original value unchanged. -/
theorem C3_counterexample :
    unprocessValue (some "k") (.vstr "hello") cfgJson = .error (.codec "JSON.parse") ∧
    ∀ v : JSVal,
      unprocessValue (some "k") (.vstr "hello") cfgJson ≠ .ok v := by
  refine ⟨rfl, ?_⟩
  intro v h
  rw [show unprocessValue (some "k") (.vstr "hello") cfgJson
      = .error (.codec "JSON.parse") from rfl] at h
  exact Except.noConfusion h

/-- Claim C3 (amended): during decode only decryption failures are
swallowed (the original, still-encoded value is returned); a JSON-parse
failure during decode raises; and failures during encode are never
swallowed (a JSON-parse failure during encode raises too). -/
theorem C3_fail_open_decrypt_only (cfg : ColumnDefinition) (key c s : String) :
    (cfg.json = false → cfg.encrypted = true → aesDecrypt key c = none →
      unprocessValue (some key) (.vstr c) cfg = .ok (.vstr c)) ∧
    (cfg.json = true → parseJSON s = none →
      unprocessValue (some key) (.vstr s) cfg = .error (.codec "JSON.parse")) ∧
    (cfg.json = true → parseJSON s = none →
      processValue (some key) (.vstr s) cfg = .error (.codec "JSON.parse")) := by
  refine ⟨?_, ?_, ?_⟩
  · intro hj he hdec
    simp [unprocessValue, hj, he, isStr, decryptVal, decryptStr, hdec]
  · intro hj hp
    simp [unprocessValue, hj, isNullV, jsonDecodeVal, jsonParseExc, hp]
  · intro hj hp
    simp [processValue, hj, isNullV, jsonEncodeVal, jsonParseExc, hp]

/-- Claim C3, witness: the amended theorem at a concrete encrypted column
with non-ciphertext input and a json column with non-JSON input. -/
theorem C3_witness :
    (cfgEnc.json = false ∧ cfgEnc.encrypted = true
      ∧ aesDecrypt "k" "hello" = none ∧ cfgJson.json = true
      ∧ parseJSON "oops" = none) ∧
    (unprocessValue (some "k") (.vstr "hello") cfgEnc = .ok (.vstr "hello")) ∧
    (unprocessValue (some "k") (.vstr "oops") cfgJson = .error (.codec "JSON.parse")) ∧
    (processValue (some "k") (.vstr "oops") cfgJson = .error (.codec "JSON.parse")) :=
  ⟨⟨rfl, rfl, rfl, rfl, rfl⟩,
    (C3_fail_open_decrypt_only cfgEnc "k" "hello" "oops").1 rfl rfl rfl,
    (C3_fail_open_decrypt_only cfgJson "k" "hello" "oops").2.1 rfl rfl,
    (C3_fail_open_decrypt_only cfgJson "k" "hello" "oops").2.2 rfl rfl⟩

/-- Claim C4, counterexample: on a json column, encoding the plain string
"hello" applies `JSON.parse` to it and raises, so `decode(encode(v))`
fails rather than returning the string. -/
theorem C4_counterexample :
    (processValue none (.vstr "hello") cfgJson).bind
        (fun x => unprocessValue none x cfgJson)
      = .error (.codec "JSON.parse") ∧
    ∀ v : JSVal,
      (processValue none (.vstr "hello") cfgJson).bind
          (fun x => unprocessValue none x cfgJson) ≠ .ok v := by
  refine ⟨rfl, ?_⟩
  intro v h
  rw [show (processValue none (.vstr "hello") cfgJson).bind
      (fun x => unprocessValue none x cfgJson) = .error (.codec "JSON.parse") from rfl] at h
  exact Except.noConfusion h

/-- Claim C4 (amended): for a json column, `decode(encode(v)) = v` for
every non-string serializable value (null, booleans, integers, arrays,
nested objects); string inputs instead go through `JSON.parse` on encode. -/
theorem C4_json_roundtrip (cfg : ColumnDefinition) (key : Option String)
    (v : JSVal) (hjson : cfg.json = true) (hs : isStr v = false) :
    (processValue key v cfg).bind (fun x => unprocessValue key x cfg) = .ok v := by
  cases v with
  | vnull =>
    simp [processValue, unprocessValue, hjson, isNullV, isStr, Except.bind]
  | vstr s => simp [isStr] at hs
  | vbool b =>
    have he : processValue key (.vbool b) cfg = .ok (.vstr (stringifyJSON (.vbool b))) := by
      simp [processValue, hjson, isNullV]; rfl
    rw [he]
    simp [unprocessValue, hjson, isNullV, jsonDecodeVal, jsonParseExc,
      parseJSON_stringifyJSON, Except.bind]
  | vnum n =>
    have he : processValue key (.vnum n) cfg = .ok (.vstr (stringifyJSON (.vnum n))) := by
      simp [processValue, hjson, isNullV]; rfl
    rw [he]
    simp [unprocessValue, hjson, isNullV, jsonDecodeVal, jsonParseExc,
      parseJSON_stringifyJSON, Except.bind]
  | varr xs =>
    have he : processValue key (.varr xs) cfg = .ok (.vstr (stringifyJSON (.varr xs))) := by
      simp [processValue, hjson, isNullV]; rfl
    rw [he]
    simp [unprocessValue, hjson, isNullV, jsonDecodeVal, jsonParseExc,
      parseJSON_stringifyJSON, Except.bind]
  | vobj fs =>
    have he : processValue key (.vobj fs) cfg = .ok (.vstr (stringifyJSON (.vobj fs))) := by
      simp [processValue, hjson, isNullV]; rfl
    rw [he]
    simp [unprocessValue, hjson, isNullV, jsonDecodeVal, jsonParseExc,
      parseJSON_stringifyJSON, Except.bind]

/-- Claim C4, witness: the amended round trip at the nested object. -/
theorem C4_witness :
    cfgJson.json = true ∧ isStr vNested = false ∧
    (processValue (some "k") vNested cfgJson).bind
      (fun x => unprocessValue (some "k") x cfgJson) = .ok vNested :=
  ⟨rfl, rfl, C4_json_roundtrip cfgJson (some "k") vNested rfl rfl⟩

/-- Claim C5, counterexample: for a column with `encrypted = true` that
also has `json = true`, with a key configured, `decode(encode(s))` for the
string "hello" raises instead of returning "hello", and with no key
configured `encode(s)` raises instead of being the identity. -/
theorem C5_counterexample :
    (processValue (some "k") (.vstr "hello") cfgJsonEnc).bind
        (fun x => unprocessValue (some "k") x cfgJsonEnc)
      = .error (.codec "JSON.parse") ∧
    processValue none (.vstr "hello") cfgJsonEnc = .error (.codec "JSON.parse") ∧
    ∀ v : JSVal,
      (processValue (some "k") (.vstr "hello") cfgJsonEnc).bind
          (fun x => unprocessValue (some "k") x cfgJsonEnc) ≠ .ok v := by
  refine ⟨rfl, rfl, ?_⟩
  intro v h
  rw [show (processValue (some "k") (.vstr "hello") cfgJsonEnc).bind
      (fun x => unprocessValue (some "k") x cfgJsonEnc)
      = .error (.codec "JSON.parse") from rfl] at h
  exact Except.noConfusion h

/-- Claim C5 (amended): for a column with `encrypted = true` and
`json = false`: with a configured key, `decode(encode(s)) = s` for every
string `s`; with no key configured, `encode(s) = s` (a silent no-op). -/
theorem C5_encrypt_roundtrip (cfg : ColumnDefinition) (key s : String)
    (henc : cfg.encrypted = true) (hjson : cfg.json = false) :
    ((processValue (some key) (.vstr s) cfg).bind
        (fun x => unprocessValue (some key) x cfg) = .ok (.vstr s)) ∧
    processValue none (.vstr s) cfg = .ok (.vstr s) := by
  constructor
  · have he : processValue (some key) (.vstr s) cfg = .ok (.vstr (aesEncrypt key s)) := by
      simp [processValue, hjson, henc, isStr, encryptVal, encryptStr]
    rw [he]
    simp [unprocessValue, hjson, henc, isStr, decryptVal, decryptStr,
      aesDecrypt_aesEncrypt, Except.bind]
  · simp [processValue, hjson, henc, isStr, encryptVal, encryptStr]

/-- Claim C5, witness: the amended theorem at the plain encrypted column,
key "test-secret-key" and the string "secret123". -/
theorem C5_witness :
    cfgEnc.encrypted = true ∧ cfgEnc.json = false ∧
    (((processValue (some "test-secret-key") (.vstr "secret123") cfgEnc).bind
        (fun x => unprocessValue (some "test-secret-key") x cfgEnc)
      = .ok (.vstr "secret123")) ∧
    processValue none (.vstr "secret123") cfgEnc = .ok (.vstr "secret123")) :=
  ⟨rfl, rfl, C5_encrypt_roundtrip cfgEnc "test-secret-key" "secret123" rfl rfl⟩

/-! ### Claim C10: offset only takes effect with a truthy limit -/

theorem applyLimitOffset_untruthy_limit (lim : Option Nat) (o : Nat)
    (hlim : lim = none ∨ lim = some 0) (rows : List Row) :
    applyLimitOffset lim (some o) rows = applyLimitOffset lim none rows := by
  rcases hlim with h | h <;> subst h <;> simp [applyLimitOffset]

/-- Claim C10: `find` emits the OFFSET clause only inside a truthy LIMIT
clause, so a find with an offset but no limit (or limit 0) ignores the
offset entirely and behaves exactly like the same find without an offset
(results from the beginning). -/
theorem C10_offset_needs_limit (db : GrokDB) (t : String)
    (w : List (String × JSVal)) (lim : Option Nat) (o : Nat)
    (inc : Bool) (ob : Option (String × OrderDir))
    (hlim : lim = none ∨ lim = some 0) :
    findOp db t w { limit := lim, offset := some o, includeDeleted := inc, orderBy := ob }
      = findOp db t w { limit := lim, offset := none, includeDeleted := inc, orderBy := ob } := by
  unfold findOp
  simp only [applyLimitOffset_untruthy_limit lim o hlim]

/-- Two-row single-column table used by the C10 witness. -/
def wdbC10 : GrokDB :=
  { tables := [("t", [("id", { type := .integer })])],
    validators := [],
    encryptionKey := none,
    store := [("t", { cols := ["id"],
                      rows := [[("id", .vnum 1)], [("id", .vnum 2)]] })],
    migrations := [] }

/-- Claim C10, witness: on a two-row table, a find with offset 1 and no
limit returns the same (full) result as a find with no offset. -/
theorem C10_witness :
    findOp wdbC10 "t" []
        { limit := none, offset := some 1, includeDeleted := false, orderBy := none }
      = findOp wdbC10 "t" []
        { limit := none, offset := none, includeDeleted := false, orderBy := none } :=
  C10_offset_needs_limit wdbC10 "t" [] none 1 false none (Or.inl rfl)

/-! ### Except helpers for reasoning about the operation pipelines -/

theorem bindE_ok {ε α β : Type} (a : α) (f : α → Except ε β) :
    (Except.ok a >>= f) = f a := rfl

theorem bindE_err {ε α β : Type} (e : ε) (f : α → Except ε β) :
    ((Except.error e : Except ε α) >>= f) = Except.error e := rfl

theorem pureE {ε α : Type} (a : α) : (pure a : Except ε α) = Except.ok a := rfl

theorem throwE {ε α : Type} (e : ε) : (throw e : Except ε α) = Except.error e := rfl

/-! ### Claim C8: validation gate -/

/-- The codec never produces a `validation` error. -/
theorem processValue_ne_validation (key : Option String) (v : JSVal)
    (cfg : ColumnDefinition) : processValue key v cfg ≠ .error .validation := by
  unfold processValue
  split
  · cases v with
    | vstr s =>
      simp only [jsonEncodeVal, jsonParseExc]
      split <;> simp
    | vnull => simp [jsonEncodeVal]
    | vbool b => intro h; exact Except.noConfusion h
    | vnum n => intro h; exact Except.noConfusion h
    | varr xs => intro h; exact Except.noConfusion h
    | vobj fs => intro h; exact Except.noConfusion h
  · split <;> simp

theorem processRow_ne_validation (key : Option String) (schema : TableSchema) :
    ∀ data, processRow key schema data ≠ .error .validation := by
  intro data
  induction data with
  | nil => simp [processRow]
  | cons kv rest ih =>
    obtain ⟨k, v⟩ := kv
    intro h
    simp only [processRow] at h
    cases hcfg : List.lookup k schema with
    | some cfg =>
      rw [hcfg] at h
      simp only [bindE_ok, bindE_err, pureE, throwE] at h
      cases hpv : processValue key v cfg with
      | error e =>
        rw [hpv, bindE_err] at h
        injection h with h2
        exact processValue_ne_validation key v cfg (by rw [hpv, h2])
      | ok v' =>
        rw [hpv, bindE_ok] at h
        cases hrest : processRow key schema rest with
        | error e =>
          rw [hrest, bindE_err] at h
          injection h with h2
          exact ih (by rw [hrest, h2])
        | ok rest' =>
          rw [hrest, bindE_ok] at h
          exact Except.noConfusion h
    | none =>
      rw [hcfg] at h
      simp only [bindE_ok, bindE_err, pureE, throwE] at h
      cases hrest : processRow key schema rest with
      | error e =>
        rw [hrest, bindE_err] at h
        injection h with h2
        exact ih (by rw [hrest, h2])
      | ok rest' =>
        rw [hrest, bindE_ok] at h
        exact Except.noConfusion h

/-- With no validator registered, `insert` never raises a validation
error. -/
theorem insertOp_no_validator {db : GrokDB} {t : String}
    {data : List (String × JSVal)}
    (hv : List.lookup t db.validators = none) :
    insertOp db t data ≠ .error .validation := by
  intro h
  simp only [insertOp] at h
  cases hs : List.lookup t db.tables with
  | none =>
    rw [hs] at h
    simp only [bindE_ok, bindE_err, pureE, throwE] at h
    injection h with h2
    exact DBErr.noConfusion h2
  | some schema =>
    rw [hs] at h
    simp only [bindE_ok, bindE_err, pureE, throwE] at h
    rw [hv] at h
    simp only [bindE_ok, bindE_err, pureE, throwE] at h
    cases hpr : processRow db.encryptionKey schema data with
    | error e =>
      rw [hpr, bindE_err] at h
      injection h with h2
      exact processRow_ne_validation db.encryptionKey schema data (by rw [hpr, h2])
    | ok processed =>
      rw [hpr, bindE_ok] at h
      cases hts : List.lookup t db.store with
      | none =>
        rw [hts] at h
        simp only [bindE_ok, bindE_err, pureE, throwE] at h
        injection h with h2
        exact DBErr.noConfusion h2
      | some ts =>
        rw [hts] at h
        simp only [bindE_ok, bindE_err, pureE, throwE] at h
        by_cases hc : processed.all (fun kv => ts.cols.contains kv.1) = true
        · rw [if_pos hc] at h
          exact Except.noConfusion h
        · rw [if_neg hc] at h
          injection h with h2
          exact DBErr.noConfusion h2

/-- With no validator registered, `update` never raises a validation
error. -/
theorem updateOp_no_validator {db : GrokDB} {t : String}
    {data w : List (String × JSVal)}
    (hv : List.lookup t db.validators = none) :
    updateOp db t data w ≠ .error .validation := by
  intro h
  simp only [updateOp] at h
  cases hs : List.lookup t db.tables with
  | none =>
    rw [hs] at h
    simp only [bindE_ok, bindE_err, pureE, throwE] at h
    injection h with h2
    exact DBErr.noConfusion h2
  | some schema =>
    rw [hs] at h
    simp only [bindE_ok, bindE_err, pureE, throwE] at h
    rw [hv] at h
    simp only [bindE_ok, bindE_err, pureE, throwE] at h
    cases hpr : processRow db.encryptionKey schema data with
    | error e =>
      rw [hpr, bindE_err] at h
      injection h with h2
      exact processRow_ne_validation db.encryptionKey schema data (by rw [hpr, h2])
    | ok processed =>
      rw [hpr, bindE_ok] at h
      cases hts : List.lookup t db.store with
      | none =>
        rw [hts] at h
        simp only [bindE_ok, bindE_err, pureE, throwE] at h
        injection h with h2
        exact DBErr.noConfusion h2
      | some ts =>
        rw [hts] at h
        simp only [bindE_ok, bindE_err, pureE, throwE] at h
        by_cases hc : (processed.all (fun kv => ts.cols.contains kv.1)
            && w.all (fun kv => ts.cols.contains kv.1)) = true
        · rw [if_pos hc] at h
          exact Except.noConfusion h
        · rw [if_neg hc] at h
          injection h with h2
          exact DBErr.noConfusion h2

/-- Claim C8: for a table with a registered validator, `insert` validates
the full payload and `update` validates a partial payload; a rejection
raises `ValidationError` before any codec or SQL (the result is the bare
validation error for every payload, including payloads whose encoding
would itself fail, with no state change and no event); with no validator
registered, neither write can raise a validation error. -/
theorem C8_validation_gate (db : GrokDB) (t : String)
    (data w : List (String × JSVal)) :
    (∀ schema vd, List.lookup t db.tables = some schema →
      List.lookup t db.validators = some vd →
      (vd.parseFull data = false → insertOp db t data = .error .validation) ∧
      (vd.parsePart data = false → updateOp db t data w = .error .validation)) ∧
    (List.lookup t db.validators = none →
      insertOp db t data ≠ .error .validation ∧
      updateOp db t data w ≠ .error .validation) := by
  constructor
  · intro schema vd hschema hvd
    constructor
    · intro hrej
      simp only [insertOp]
      rw [hschema]
      simp only [bindE_ok, bindE_err, pureE, throwE]
      rw [hvd]
      simp only [bindE_ok, bindE_err, pureE, throwE]
      simp [hrej]
    · intro hrej
      simp only [updateOp]
      rw [hschema]
      simp only [bindE_ok, bindE_err, pureE, throwE]
      rw [hvd]
      simp only [bindE_ok, bindE_err, pureE, throwE]
      simp [hrej]
  · intro hv
    exact ⟨insertOp_no_validator hv, updateOp_no_validator hv⟩

/-- Rejecting validator used by the C8 witness. -/
def vdReject : Validator := { parseFull := fun _ => false, parsePart := fun _ => false }

/-- Database with a rejecting validator on table "t" (C8 witness). -/
def wdbC8 : GrokDB :=
  { tables := [("t", [("id", { type := .integer })])],
    validators := [("t", vdReject)],
    encryptionKey := none,
    store := [("t", { cols := ["id"], rows := [] })],
    migrations := [] }

/-- Database with no validator on table "t" (C8 witness). -/
def wdbC8n : GrokDB := { wdbC8 with validators := [] }

/-- Claim C8, witness: on a concrete table, a rejecting validator turns
both writes into validation errors, and without a validator neither write
can produce one. -/
theorem C8_witness :
    (List.lookup "t" wdbC8.tables = some [("id", { type := .integer })]
      ∧ List.lookup "t" wdbC8.validators = some vdReject
      ∧ vdReject.parseFull [("id", .vnum 1)] = false
      ∧ vdReject.parsePart [("id", .vnum 1)] = false
      ∧ List.lookup "t" wdbC8n.validators = none) ∧
    insertOp wdbC8 "t" [("id", .vnum 1)] = .error .validation ∧
    updateOp wdbC8 "t" [("id", .vnum 1)] [] = .error .validation ∧
    insertOp wdbC8n "t" [("id", .vnum 1)] ≠ .error .validation ∧
    updateOp wdbC8n "t" [("id", .vnum 1)] [] ≠ .error .validation :=
  ⟨⟨rfl, rfl, rfl, rfl, rfl⟩,
    ((C8_validation_gate wdbC8 "t" [("id", .vnum 1)] []).1
      [("id", { type := .integer })] vdReject rfl rfl).1 rfl,
    ((C8_validation_gate wdbC8 "t" [("id", .vnum 1)] []).1
      [("id", { type := .integer })] vdReject rfl rfl).2 rfl,
    ((C8_validation_gate wdbC8n "t" [("id", .vnum 1)] []).2 rfl).1,
    ((C8_validation_gate wdbC8n "t" [("id", .vnum 1)] []).2 rfl).2⟩

/-! ### Claim C9: soft delete publishes update events, never delete events -/

theorem update_topic_ne_delete_topic (t : String) :
    t ++ ":update" ≠ t ++ ":delete" := by
  intro h
  have hd := congrArg String.data h
  simp only [String.data_append] at hd
  have h2 := List.append_cancel_left hd
  simp at h2

/-- A successful `update` emits exactly the `<table>:update` event. -/
theorem updateOp_ok_events {db : GrokDB} {t : String}
    {data w : List (String × JSVal)} {db' : GrokDB} {evs : List String}
    (h : updateOp db t data w = .ok (db', evs)) : evs = [t ++ ":update"] := by
  simp only [updateOp] at h
  cases hs : List.lookup t db.tables with
  | none =>
    rw [hs] at h
    simp only [bindE_ok, bindE_err, pureE, throwE] at h
    exact Except.noConfusion h
  | some schema =>
    rw [hs] at h
    simp only [bindE_ok, bindE_err, pureE, throwE] at h
    cases hv : List.lookup t db.validators with
    | some vd =>
      rw [hv] at h
      simp only [bindE_ok, bindE_err, pureE, throwE] at h
      by_cases hp : vd.parsePart data = true
      · rw [if_pos hp] at h
        cases hpr : processRow db.encryptionKey schema data with
        | error e =>
          rw [hpr, bindE_err] at h
          exact Except.noConfusion h
        | ok processed =>
          rw [hpr, bindE_ok] at h
          cases hts : List.lookup t db.store with
          | none =>
            rw [hts] at h
            simp only [bindE_ok, bindE_err, pureE, throwE] at h
            exact Except.noConfusion h
          | some ts =>
            rw [hts] at h
            simp only [bindE_ok, bindE_err, pureE, throwE] at h
            by_cases hc : (processed.all (fun kv => ts.cols.contains kv.1)
                && w.all (fun kv => ts.cols.contains kv.1)) = true
            · rw [if_pos hc] at h
              injection h with h2
              exact (congrArg Prod.snd h2).symm
            · rw [if_neg hc] at h
              exact Except.noConfusion h
      · rw [if_neg hp] at h
        exact Except.noConfusion h
    | none =>
      rw [hv] at h
      simp only [bindE_ok, bindE_err, pureE, throwE] at h
      cases hpr : processRow db.encryptionKey schema data with
      | error e =>
        rw [hpr, bindE_err] at h
        exact Except.noConfusion h
      | ok processed =>
        rw [hpr, bindE_ok] at h
        cases hts : List.lookup t db.store with
        | none =>
          rw [hts] at h
          simp only [bindE_ok, bindE_err, pureE, throwE] at h
          exact Except.noConfusion h
        | some ts =>
          rw [hts] at h
          simp only [bindE_ok, bindE_err, pureE, throwE] at h
          by_cases hc : (processed.all (fun kv => ts.cols.contains kv.1)
              && w.all (fun kv => ts.cols.contains kv.1)) = true
          · rw [if_pos hc] at h
            injection h with h2
            exact (congrArg Prod.snd h2).symm
          · rw [if_neg hc] at h
            exact Except.noConfusion h

/-- With a soft-delete column in the schema, `delete` is exactly the
delegated `update` call. -/
theorem deleteOp_soft_delegates {db : GrokDB} {t : String} {schema : TableSchema}
    {w : List (String × JSVal)} {now c : String}
    (hs : List.lookup t db.tables = some schema)
    (hsd : softDeleteColumn schema = some c) :
    deleteOp db t w now = updateOp db t [(c, .vstr now)] w := by
  simp only [deleteOp]
  rw [hs]
  simp only [bindE_ok, bindE_err, pureE, throwE]
  rw [hsd]

/-- A successful `delete` on a schema without a soft-delete column emits
exactly the `<table>:delete` event. -/
theorem deleteOp_hard_events {db : GrokDB} {t : String} {schema : TableSchema}
    {w : List (String × JSVal)} {now : String} {db' : GrokDB} {evs : List String}
    (hs : List.lookup t db.tables = some schema)
    (hsd : softDeleteColumn schema = none)
    (h : deleteOp db t w now = .ok (db', evs)) : evs = [t ++ ":delete"] := by
  simp only [deleteOp] at h
  rw [hs] at h
  simp only [bindE_ok, bindE_err, pureE, throwE] at h
  rw [hsd] at h
  simp only [bindE_ok, bindE_err, pureE, throwE] at h
  cases hts : List.lookup t db.store with
  | none =>
    rw [hts] at h
    simp only [bindE_ok, bindE_err, pureE, throwE] at h
    exact Except.noConfusion h
  | some ts =>
    rw [hts] at h
    simp only [bindE_ok, bindE_err, pureE, throwE] at h
    by_cases hc : w.all (fun kv => ts.cols.contains kv.1) = true
    · rw [if_pos hc] at h
      injection h with h2
      exact (congrArg Prod.snd h2).symm
    · rw [if_neg hc] at h
      exact Except.noConfusion h

/-- Claim C9: on a table whose schema declares a soft-delete column, a
successful `delete` publishes exactly the `<table>:update` event (via its
delegation to `update`) and never a `<table>:delete` event; the
`<table>:delete` event is published exactly when the schema has no
soft-delete column and the physical deletion succeeds. -/
theorem C9_soft_delete_events (db : GrokDB) (t : String) (schema : TableSchema)
    (w : List (String × JSVal)) (now : String)
    (hs : List.lookup t db.tables = some schema) :
    (∀ c, softDeleteColumn schema = some c →
      deleteOp db t w now = updateOp db t [(c, .vstr now)] w ∧
      ∀ db' evs, deleteOp db t w now = .ok (db', evs) →
        evs = [t ++ ":update"] ∧ (t ++ ":delete") ∉ evs) ∧
    (softDeleteColumn schema = none →
      ∀ db' evs, deleteOp db t w now = .ok (db', evs) → evs = [t ++ ":delete"]) := by
  constructor
  · intro c hsd
    refine ⟨deleteOp_soft_delegates hs hsd, ?_⟩
    intro db' evs h
    rw [deleteOp_soft_delegates hs hsd] at h
    have hevs := updateOp_ok_events h
    subst hevs
    refine ⟨rfl, ?_⟩
    intro hmem
    simp only [List.mem_singleton] at hmem
    exact update_topic_ne_delete_topic t hmem.symm
  · intro hsd db' evs h
    exact deleteOp_hard_events hs hsd h

/-- Tables for the C9 witness: "s" has a soft-delete column, "h" does
not; each holds one row. -/
def wdbC9 : GrokDB :=
  { tables := [("s", [("id", { type := .integer }),
                      ("deleted_at", { type := .datetime, softDelete := true })]),
               ("h", [("id", { type := .integer })])],
    validators := [],
    encryptionKey := none,
    store := [("s", { cols := ["id", "deleted_at"],
                      rows := [[("id", .vnum 1), ("deleted_at", .vnull)]] }),
              ("h", { cols := ["id"], rows := [[("id", .vnum 1)]] })],
    migrations := [] }

/-- Claim C9, witness: deleting from the soft-delete table emits only
`s:update`; deleting from the plain table emits `h:delete`. -/
theorem C9_witness :
    (∀ db' evs,
      deleteOp wdbC9 "s" [("id", .vnum 1)] "2024-01-01T00:00:00.000Z" = .ok (db', evs) →
        evs = ["s" ++ ":update"] ∧ ("s" ++ ":delete") ∉ evs) ∧
    (∀ db' evs,
      deleteOp wdbC9 "h" [("id", .vnum 1)] "2024-01-01T00:00:00.000Z" = .ok (db', evs) →
        evs = ["h" ++ ":delete"]) :=
  ⟨((C9_soft_delete_events wdbC9 "s"
      [("id", { type := .integer }),
       ("deleted_at", { type := .datetime, softDelete := true })]
      [("id", .vnum 1)] "2024-01-01T00:00:00.000Z" rfl).1 "deleted_at" rfl).2,
    (C9_soft_delete_events wdbC9 "h" [("id", { type := .integer })]
      [("id", .vnum 1)] "2024-01-01T00:00:00.000Z" rfl).2 rfl⟩

/-! ### Claims C6/C7: migration runner -/

/-- The comparator used by `migrate`'s file sort (`Array.sort` semantics
on names). -/
def nameLe (a b : MigrationUnit) : Bool := decide (a.name ≤ b.name)

theorem insertSorted_perm {α : Type} (le : α → α → Bool) (x : α) (l : List α) :
    List.Perm (insertSorted le x l) (x :: l) := by
  induction l with
  | nil => simp [insertSorted]
  | cons y ys ih =>
    simp only [insertSorted]
    split
    · exact List.Perm.refl _
    · exact List.Perm.trans (List.Perm.cons y ih) (List.Perm.swap x y ys)

theorem sortBy_perm {α : Type} (le : α → α → Bool) (l : List α) :
    List.Perm (sortBy le l) l := by
  induction l with
  | nil => simp [sortBy]
  | cons x xs ih =>
    have : sortBy le (x :: xs) = insertSorted le x (sortBy le xs) := rfl
    rw [this]
    exact List.Perm.trans (insertSorted_perm le x (sortBy le xs)) (List.Perm.cons x ih)

theorem insertSorted_sorted {α : Type} (le : α → α → Bool)
    (htot : ∀ a b, le a b = false → le b a = true)
    (htrans : ∀ a b c, le a b = true → le b c = true → le a c = true)
    (x : α) (l : List α) (hl : l.Pairwise (fun a b => le a b = true)) :
    (insertSorted le x l).Pairwise (fun a b => le a b = true) := by
  induction l with
  | nil => simp [insertSorted]
  | cons y ys ih =>
    simp only [insertSorted]
    rcases List.pairwise_cons.mp hl with ⟨hy, hys⟩
    split
    · next hxy =>
      refine List.pairwise_cons.mpr ⟨?_, hl⟩
      intro z hz
      rcases List.mem_cons.mp hz with h | h
      · subst h; exact hxy
      · exact htrans x y z hxy (hy z h)
    · next hxy =>
      refine List.pairwise_cons.mpr ⟨?_, ih hys⟩
      intro z hz
      have hz' := (List.Perm.mem_iff (insertSorted_perm le x ys)).mp hz
      rcases List.mem_cons.mp hz' with h | h
      · rw [h]
        exact htot x y (by simpa using hxy)
      · exact hy z h

theorem sortBy_sorted {α : Type} (le : α → α → Bool)
    (htot : ∀ a b, le a b = false → le b a = true)
    (htrans : ∀ a b c, le a b = true → le b c = true → le a c = true)
    (l : List α) : (sortBy le l).Pairwise (fun a b => le a b = true) := by
  induction l with
  | nil => simp [sortBy]
  | cons x xs ih =>
    have : sortBy le (x :: xs) = insertSorted le x (sortBy le xs) := rfl
    rw [this]
    exact insertSorted_sorted le htot htrans x _ ih

theorem nameLe_total (a b : MigrationUnit) (h : nameLe a b = false) : nameLe b a = true := by
  simp only [nameLe, decide_eq_false_iff_not] at h
  simp only [nameLe, decide_eq_true_eq]
  exact le_of_not_le h

theorem nameLe_trans (a b c : MigrationUnit) (hab : nameLe a b = true)
    (hbc : nameLe b c = true) : nameLe a c = true := by
  simp only [nameLe, decide_eq_true_eq] at hab hbc ⊢
  exact le_trans hab hbc

theorem contains_true_mem {l : List String} {a : String}
    (h : l.contains a = true) : a ∈ l := by
  simpa using h

theorem mem_contains_true {l : List String} {a : String} (h : a ∈ l) :
    l.contains a = true := by
  simpa using h

theorem contains_false_not_mem {l : List String} {a : String}
    (h : ¬ l.contains a = true) : a ∉ l := by
  intro hmem
  exact h (mem_contains_true hmem)

/-- Fold invariants of `migrate('up')`: the ledger stays duplicate-free,
only grows, ends up containing every unit's name, and each unit's
up-procedure is invoked (traced) at most once per name. -/
theorem migrate_up_fold (us : List MigrationUnit) :
    ∀ (db : GrokDB) (tr : List MigAction),
      (∀ u ∈ us, ∀ d, (u.up d).migrations = d.migrations) →
      (us.map (fun u => u.name)).Nodup →
      db.migrations.Nodup →
      (us.foldl (migrateStep .up) (db, tr)).1.migrations.Nodup ∧
      (∀ n, n ∈ db.migrations → n ∈ (us.foldl (migrateStep .up) (db, tr)).1.migrations) ∧
      (∀ u ∈ us, u.name ∈ (us.foldl (migrateStep .up) (db, tr)).1.migrations) ∧
      (∀ n, (us.foldl (migrateStep .up) (db, tr)).2.count (.upRun n)
          ≤ tr.count (.upRun n) + (if n ∈ us.map (fun u => u.name) then 1 else 0)) := by
  induction us with
  | nil =>
    intro db tr _ _ hnd
    exact ⟨hnd, fun n h => h, by simp, by simp⟩
  | cons u us ih =>
    intro db tr hpres hnodup hnd
    have hnodup' : (us.map (fun u => u.name)).Nodup := (List.nodup_cons.mp hnodup).2
    have hhead : u.name ∉ us.map (fun u => u.name) := (List.nodup_cons.mp hnodup).1
    simp only [List.foldl_cons]
    by_cases hmem : db.migrations.contains u.name = true
    · have hstep : migrateStep .up (db, tr) u = (db, tr) := by
        simp [migrateStep, contains_true_mem hmem]
      rw [hstep]
      obtain ⟨h1, h2, h3, h4⟩ :=
        ih db tr (fun v hv d => hpres v (List.mem_cons_of_mem u hv) d) hnodup' hnd
      refine ⟨h1, h2, ?_, ?_⟩
      · intro v hv
        rcases List.mem_cons.mp hv with h | h
        · rw [h]
          exact h2 u.name (contains_true_mem hmem)
        · exact h3 v h
      · intro n
        refine le_trans (h4 n) ?_
        have hmono : (if n ∈ us.map (fun u => u.name) then 1 else 0)
            ≤ (if n ∈ (u :: us).map (fun u => u.name) then (1 : Nat) else 0) := by
          by_cases hn : n ∈ us.map (fun u => u.name)
          · rw [if_pos hn, if_pos]
            rw [List.map_cons]
            exact List.mem_cons_of_mem _ hn
          · rw [if_neg hn]
            exact Nat.zero_le _
        exact Nat.add_le_add_left hmono _
    · have hstep : migrateStep .up (db, tr) u
          = ({ u.up db with migrations := (u.up db).migrations ++ [u.name] },
             tr ++ [.upRun u.name, .ledgerInsert u.name]) := by
        simp [migrateStep, contains_false_not_mem hmem]
      rw [hstep]
      have hpresu : (u.up db).migrations = db.migrations := hpres u (by simp) db
      have hnotin : u.name ∉ db.migrations := contains_false_not_mem hmem
      have hnd1 : ((u.up db).migrations ++ [u.name]).Nodup := by
        rw [hpresu]
        simp [List.nodup_append, hnd, hnotin]
      obtain ⟨h1, h2, h3, h4⟩ :=
        ih ({ u.up db with migrations := (u.up db).migrations ++ [u.name] })
          (tr ++ [.upRun u.name, .ledgerInsert u.name])
          (fun v hv d => hpres v (List.mem_cons_of_mem u hv) d) hnodup' hnd1
      refine ⟨h1, ?_, ?_, ?_⟩
      · intro n hin
        refine h2 n ?_
        simp only [hpresu, List.mem_append]
        exact Or.inl hin
      · intro v hv
        rcases List.mem_cons.mp hv with h | h
        · subst h
          refine h2 v.name ?_
          simp [hpresu]
        · exact h3 v h
      · intro n
        refine le_trans (h4 n) ?_
        rw [List.count_append]
        by_cases hn : n = u.name
        · have hcnt : List.count (MigAction.upRun n)
              [MigAction.upRun u.name, MigAction.ledgerInsert u.name] = 1 := by
            rw [hn]
            simp [List.count_cons]
          rw [hcnt]
          have hnotail : n ∉ List.map (fun u => u.name) us := by
            rw [hn]; exact hhead
          have hincons : n ∈ List.map (fun u => u.name) (u :: us) := by
            rw [hn, List.map_cons]
            exact List.mem_cons_self _ _
          rw [if_neg hnotail, if_pos hincons]
        · have hcnt : List.count (MigAction.upRun n)
              [MigAction.upRun u.name, MigAction.ledgerInsert u.name] = 0 := by
            simp [List.count_cons, hn]
          rw [hcnt]
          by_cases hnn : n ∈ List.map (fun u => u.name) us
          · have hcons : n ∈ List.map (fun u => u.name) (u :: us) := by
              rw [List.map_cons]
              exact List.mem_cons_of_mem _ hnn
            rw [if_pos hnn, if_pos hcons]
          · have hcons : n ∉ List.map (fun u => u.name) (u :: us) := by
              rw [List.map_cons]
              intro hc
              rcases List.mem_cons.mp hc with h | h
              · exact hn h
              · exact hnn h
            rw [if_neg hnn, if_neg hcons]

/-- Once every unit's name is in the ledger, a `migrate('up')` pass is a
no-op. -/
theorem migrate_up_all_present (us : List MigrationUnit) :
    ∀ (db : GrokDB) (tr : List MigAction),
      (∀ u ∈ us, u.name ∈ db.migrations) →
      us.foldl (migrateStep .up) (db, tr) = (db, tr) := by
  induction us with
  | nil => intro db tr _; rfl
  | cons u us ih =>
    intro db tr hall
    have hmem : db.migrations.contains u.name = true :=
      mem_contains_true (hall u (by simp))
    have hstep : migrateStep .up (db, tr) u = (db, tr) := by
      simp [migrateStep, contains_true_mem hmem]
    simp only [List.foldl_cons, hstep]
    exact ih db tr (fun v hv => hall v (List.mem_cons_of_mem u hv))

/-- Claim C6: calling `migrate('up')` twice in succession applies each
unit's up-procedure at most once (a unit whose name is already in the
ledger is skipped — the whole second pass is a no-op), and afterwards the
ledger holds at most one row per migration name.  Hypotheses: distinct
migration file names, an initially duplicate-free ledger, and up-procedures
that do not themselves write the `migrations` ledger. -/
theorem C6_migrate_up_idempotent (files : List MigrationUnit) (db : GrokDB)
    (hpres : ∀ u ∈ files, ∀ d, (u.up d).migrations = d.migrations)
    (hnodup : (files.map (fun u => u.name)).Nodup)
    (hledger : db.migrations.Nodup) :
    migrate .up files (migrate .up files db).1 = ((migrate .up files db).1, []) ∧
    (migrate .up files db).1.migrations.Nodup ∧
    (∀ n, ((migrate .up files db).2
        ++ (migrate .up files (migrate .up files db).1).2).count (.upRun n) ≤ 1) := by
  have hperm := sortBy_perm nameLe files
  have hpres' : ∀ u ∈ sortBy nameLe files, ∀ d, (u.up d).migrations = d.migrations :=
    fun u hu d => hpres u ((List.Perm.mem_iff hperm).mp hu) d
  have hnodup' : ((sortBy nameLe files).map (fun u => u.name)).Nodup := by
    have hpm := List.Perm.map (fun u => u.name) hperm
    exact (List.Perm.nodup_iff hpm).mpr hnodup
  obtain ⟨h1, _h2, h3, h4⟩ := migrate_up_fold (sortBy nameLe files) db [] hpres' hnodup' hledger
  have hsecond : migrate .up files (migrate .up files db).1
      = ((migrate .up files db).1, []) := by
    exact migrate_up_all_present (sortBy nameLe files) _ [] h3
  refine ⟨hsecond, h1, ?_⟩
  intro n
  rw [hsecond]
  simp only [List.append_nil]
  refine le_trans (h4 n) ?_
  simp only [List.count_nil, Nat.zero_add]
  split <;> omega

/-- Two concrete migration units (up/down procedures leave the state
unchanged except through the runner itself). -/
def migA : MigrationUnit := { name := "20240101000000_a.ts", up := id, down := id }

def migB : MigrationUnit := { name := "20240102000000_b.ts", up := id, down := id }

/-- Empty database state for the migration witnesses. -/
def wdbMig : GrokDB :=
  { tables := [], validators := [], encryptionKey := none, store := [], migrations := [] }

/-- Claim C6, witness: the idempotency theorem at two concrete units over
an empty ledger. -/
theorem C6_witness :
    migrate .up [migA, migB] (migrate .up [migA, migB] wdbMig).1
      = ((migrate .up [migA, migB] wdbMig).1, []) ∧
    (migrate .up [migA, migB] wdbMig).1.migrations.Nodup ∧
    (∀ n, ((migrate .up [migA, migB] wdbMig).2
        ++ (migrate .up [migA, migB] (migrate .up [migA, migB] wdbMig).1).2).count
          (.upRun n) ≤ 1) :=
  C6_migrate_up_idempotent [migA, migB] wdbMig
    (by intro u hu d
        rcases List.mem_cons.mp hu with h | h
        · rw [h]; rfl
        · rcases List.mem_cons.mp h with h2 | h2
          · rw [h2]; rfl
          · exact absurd h2 (List.not_mem_nil u))
    (by decide)
    List.nodup_nil

/-- Expected trace of a down pass over the given units in order: for each
unit, its down-procedure invocation followed by its ledger-row deletion. -/
def downTrace : List MigrationUnit → List MigAction
  | [] => []
  | u :: us => .downRun u.name :: .ledgerDelete u.name :: downTrace us

/-- Expected trace of an up pass over the given units in order. -/
def upTrace : List MigrationUnit → List MigAction
  | [] => []
  | u :: us => .upRun u.name :: .ledgerInsert u.name :: upTrace us

/-- Fold behaviour of `migrate('down')` when every unit's name is in the
ledger: the units are processed in list order, each down invocation is
immediately followed by its ledger delete, and every processed name ends
up outside the ledger. -/
theorem migrate_down_fold (us : List MigrationUnit) :
    ∀ (db : GrokDB) (tr : List MigAction),
      (∀ u ∈ us, ∀ d, (u.down d).migrations = d.migrations) →
      (us.map (fun u => u.name)).Nodup →
      (∀ u ∈ us, u.name ∈ db.migrations) →
      (us.foldl (migrateStep .down) (db, tr)).2 = tr ++ downTrace us ∧
      (∀ n, n ∈ (us.foldl (migrateStep .down) (db, tr)).1.migrations →
        n ∈ db.migrations) ∧
      (∀ u ∈ us, u.name ∉ (us.foldl (migrateStep .down) (db, tr)).1.migrations) := by
  induction us with
  | nil =>
    intro db tr _ _ _
    exact ⟨by simp [downTrace], fun n h => h, by simp⟩
  | cons u us ih =>
    intro db tr hpres hnodup hall
    have hnodup' : (us.map (fun u => u.name)).Nodup := (List.nodup_cons.mp hnodup).2
    have hhead : u.name ∉ us.map (fun u => u.name) := (List.nodup_cons.mp hnodup).1
    have hmem : u.name ∈ db.migrations := hall u (by simp)
    have hstep : migrateStep .down (db, tr) u
        = ({ u.down db with
              migrations := (u.down db).migrations.filter (fun n => n ≠ u.name) },
           tr ++ [.downRun u.name, .ledgerDelete u.name]) := by
      simp [migrateStep, hmem]
    have hpresu : (u.down db).migrations = db.migrations := hpres u (by simp) db
    simp only [List.foldl_cons, hstep]
    have hall' : ∀ v ∈ us, v.name ∈
        ((u.down db).migrations.filter (fun n => n ≠ u.name)) := by
      intro v hv
      rw [hpresu]
      rw [List.mem_filter]
      refine ⟨hall v (List.mem_cons_of_mem u hv), ?_⟩
      simp only [decide_eq_true_eq]
      intro hvn
      exact hhead (hvn ▸ List.mem_map_of_mem (fun u => u.name) hv)
    obtain ⟨h1, h2, h3⟩ :=
      ih ({ u.down db with
              migrations := (u.down db).migrations.filter (fun n => n ≠ u.name) })
        (tr ++ [.downRun u.name, .ledgerDelete u.name])
        (fun v hv d => hpres v (List.mem_cons_of_mem u hv) d) hnodup' hall'
    refine ⟨?_, ?_, ?_⟩
    · rw [h1]
      simp [downTrace]
    · intro n hn
      have := h2 n hn
      simp only [hpresu, List.mem_filter] at this
      exact this.1
    · intro v hv
      rcases List.mem_cons.mp hv with h | h
      · rw [h]
        intro hin
        have := h2 u.name hin
        simp only [hpresu, List.mem_filter, decide_eq_true_eq] at this
        exact this.2 rfl
      · exact h3 v h

/-- Fold behaviour of `migrate('up')` when no unit's name is in the
ledger yet: units are processed in list order, each up invocation
immediately followed by its ledger insert. -/
theorem migrate_up_fresh_fold (us : List MigrationUnit) :
    ∀ (db : GrokDB) (tr : List MigAction),
      (∀ u ∈ us, ∀ d, (u.up d).migrations = d.migrations) →
      (us.map (fun u => u.name)).Nodup →
      (∀ u ∈ us, u.name ∉ db.migrations) →
      (us.foldl (migrateStep .up) (db, tr)).2 = tr ++ upTrace us := by
  induction us with
  | nil =>
    intro db tr _ _ _
    simp [upTrace]
  | cons u us ih =>
    intro db tr hpres hnodup hfresh
    have hnodup' : (us.map (fun u => u.name)).Nodup := (List.nodup_cons.mp hnodup).2
    have hhead : u.name ∉ us.map (fun u => u.name) := (List.nodup_cons.mp hnodup).1
    have hmem : u.name ∉ db.migrations := hfresh u (by simp)
    have hstep : migrateStep .up (db, tr) u
        = ({ u.up db with migrations := (u.up db).migrations ++ [u.name] },
           tr ++ [.upRun u.name, .ledgerInsert u.name]) := by
      simp [migrateStep, hmem]
    have hpresu : (u.up db).migrations = db.migrations := hpres u (by simp) db
    simp only [List.foldl_cons, hstep]
    have hfresh' : ∀ v ∈ us, v.name ∉ ((u.up db).migrations ++ [u.name]) := by
      intro v hv
      rw [hpresu]
      simp only [List.mem_append, List.mem_singleton]
      rintro (h | h)
      · exact hfresh v (List.mem_cons_of_mem u hv) h
      · exact hhead (h ▸ List.mem_map_of_mem (fun u => u.name) hv)
    have := ih ({ u.up db with migrations := (u.up db).migrations ++ [u.name] })
      (tr ++ [.upRun u.name, .ledgerInsert u.name])
      (fun v hv d => hpres v (List.mem_cons_of_mem u hv) d) hnodup' hfresh'
    rw [this]
    simp [upTrace]

/-- Claim C7: `migrate('down')` walks the available units in the same
lexicographic forward name order as `migrate('up')` (the sorted file list,
never reversed): on a ledger containing every unit, the down trace is
exactly `downRun u₁, ledgerDelete u₁, downRun u₂, …` over the
name-sorted list (each down invocation immediately followed by that
unit's ledger-row deletion), after which no unit's name remains in the
ledger; on a fresh ledger the up trace walks the very same sorted list. -/
theorem C7_down_forward_order (files : List MigrationUnit) (db dbFresh : GrokDB)
    (hpresD : ∀ u ∈ files, ∀ d, (u.down d).migrations = d.migrations)
    (hpresU : ∀ u ∈ files, ∀ d, (u.up d).migrations = d.migrations)
    (hnodup : (files.map (fun u => u.name)).Nodup)
    (hall : ∀ u ∈ files, u.name ∈ db.migrations)
    (hfresh : ∀ u ∈ files, u.name ∉ dbFresh.migrations) :
    (sortBy nameLe files).Pairwise (fun a b => a.name ≤ b.name) ∧
    (migrate .down files db).2 = downTrace (sortBy nameLe files) ∧
    (∀ u ∈ files, u.name ∉ (migrate .down files db).1.migrations) ∧
    (migrate .up files dbFresh).2 = upTrace (sortBy nameLe files) := by
  have hperm := sortBy_perm nameLe files
  have hmemiff : ∀ u, u ∈ sortBy nameLe files ↔ u ∈ files :=
    fun u => List.Perm.mem_iff hperm
  have hnodup' : ((sortBy nameLe files).map (fun u => u.name)).Nodup :=
    (List.Perm.nodup_iff (List.Perm.map (fun u => u.name) hperm)).mpr hnodup
  obtain ⟨hd1, _hd2, hd3⟩ := migrate_down_fold (sortBy nameLe files) db []
    (fun u hu d => hpresD u ((hmemiff u).mp hu) d) hnodup'
    (fun u hu => hall u ((hmemiff u).mp hu))
  refine ⟨?_, ?_, ?_, ?_⟩
  · have hs := sortBy_sorted nameLe nameLe_total nameLe_trans files
    refine List.Pairwise.imp ?_ hs
    intro a b hab
    simpa [nameLe] using hab
  · simpa using hd1
  · intro u hu
    exact hd3 u ((hmemiff u).mpr hu)
  · have := migrate_up_fresh_fold (sortBy nameLe files) dbFresh []
      (fun u hu d => hpresU u ((hmemiff u).mp hu) d) hnodup'
      (fun u hu => hfresh u ((hmemiff u).mp hu))
    simpa using this

/-- Claim C7, witness: two concrete units whose names are in the ledger
are brought down in forward sorted order, deleting each ledger row right
after its down-procedure runs; the up pass on a fresh ledger walks the
same order. -/
theorem C7_witness :
    (sortBy nameLe [migB, migA]).Pairwise (fun a b => a.name ≤ b.name) ∧
    (migrate .down [migB, migA]
        { wdbMig with migrations := [migA.name, migB.name] }).2
      = downTrace (sortBy nameLe [migB, migA]) ∧
    (∀ u ∈ [migB, migA], u.name ∉ (migrate .down [migB, migA]
        { wdbMig with migrations := [migA.name, migB.name] }).1.migrations) ∧
    (migrate .up [migB, migA] wdbMig).2 = upTrace (sortBy nameLe [migB, migA]) :=
  C7_down_forward_order [migB, migA]
    { wdbMig with migrations := [migA.name, migB.name] } wdbMig
    (by intro u hu d
        rcases List.mem_cons.mp hu with h | h
        · rw [h]; rfl
        · rcases List.mem_cons.mp h with h2 | h2
          · rw [h2]; rfl
          · exact absurd h2 (List.not_mem_nil u))
    (by intro u hu d
        rcases List.mem_cons.mp hu with h | h
        · rw [h]; rfl
        · rcases List.mem_cons.mp h with h2 | h2
          · rw [h2]; rfl
          · exact absurd h2 (List.not_mem_nil u))
    (by decide)
    (by decide)
    (by decide)

/-! ### Claim C1: soft delete + find visibility -/

/-- Schema whose soft-delete column is named `removed_at` (not
`deleted_at`); the table has no `deleted_at` column. -/
def c1schema : TableSchema :=
  [("id", { type := .integer }),
   ("removed_at", { type := .datetime, softDelete := true })]

def c1db : GrokDB :=
  { tables := [("t", c1schema)],
    validators := [],
    encryptionKey := none,
    store := [("t", { cols := ["id", "removed_at"],
                      rows := [[("id", .vnum 1), ("removed_at", .vnull)]] })],
    migrations := [] }

/-- The state after the (successful) soft delete in the C1
counterexample. -/
def c1dbAfter : GrokDB :=
  { tables := [("t", c1schema)],
    validators := [],
    encryptionKey := none,
    store := [("t", { cols := ["id", "removed_at"],
                      rows := [[("id", .vnum 1),
                                ("removed_at", .vstr "2024-01-01T00:00:00.000Z")]] })],
    migrations := [] }

/-- Claim C1, counterexample: with a soft-delete column of a name other
than `deleted_at`, `delete` correctly rewrites into an update stamping
that column, but the subsequent default `find` injects the fixed
predicate `deleted_at IS NULL` and fails with a no-such-column storage
error: it neither adds `removed_at IS NULL` nor excludes the soft-deleted
row. -/
theorem C1_counterexample :
    softDeleteColumn c1schema = some "removed_at" ∧
    deleteOp c1db "t" [("id", .vnum 1)] "2024-01-01T00:00:00.000Z"
      = .ok (c1dbAfter, ["t:update"]) ∧
    findOp c1dbAfter "t" [("id", .vnum 1)] {} = .error (.storage "no such column") ∧
    findOp c1dbAfter "t" [("id", .vnum 1)] { includeDeleted := true }
      = .ok [[("id", .vnum 1), ("removed_at", .vstr "2024-01-01T00:00:00.000Z")]] :=
  ⟨rfl, rfl, rfl, rfl⟩

theorem all_map_comp {α β : Type} (l : List α) (f : α → β) (p : β → Bool) :
    (l.map f).all p = l.all (fun x => p (f x)) := by
  induction l with
  | nil => rfl
  | cons x xs ih => simp [ih]

theorem lookup_storeSet_self (store : List (String × TableStore)) (t : String)
    (ts' : TableStore) (h : (List.lookup t store).isSome = true) :
    List.lookup t (storeSet store t ts') = some ts' := by
  induction store with
  | nil => simp [List.lookup] at h
  | cons p rest ih =>
    obtain ⟨k, v⟩ := p
    by_cases hk : k = t
    · subst hk
      simp [storeSet, List.lookup_cons]
    · have hbeq : (t == k) = false := by
        simp only [beq_eq_false_iff_ne, ne_eq]
        exact fun he => hk he.symm
      simp only [storeSet, List.map_cons, if_neg hk]
      rw [List.lookup_cons] at h ⊢
      rw [hbeq] at h ⊢
      exact ih h

theorem storeSet_tables (db : GrokDB) (t : String) (ts' : TableStore) :
    ({ db with store := storeSet db.store t ts' }).tables = db.tables := rfl

theorem lookup_applySet (sets : List (String × JSVal)) (c : String) :
    ∀ r : Row, List.lookup c (applySet r sets)
      = (List.lookup c r).map (fun v => (List.lookup c sets).getD v) := by
  intro r
  induction r with
  | nil => rfl
  | cons kv rest ih =>
    obtain ⟨k, v⟩ := kv
    by_cases hk : c = k
    · subst hk
      simp only [applySet, List.map_cons]
      cases hs : List.lookup c sets with
      | some w => simp [List.lookup_cons, hs]
      | none => simp [List.lookup_cons, hs]
    · have hbeq : (c == k) = false := by
        simp only [beq_eq_false_iff_ne, ne_eq]
        exact hk
      simp only [applySet, List.map_cons] at ih ⊢
      cases hs : List.lookup k sets with
      | some w =>
        simp only [hs]
        rw [List.lookup_cons, List.lookup_cons, hbeq]
        exact ih
      | none =>
        simp only [hs]
        rw [List.lookup_cons, List.lookup_cons, hbeq]
        exact ih

/-- The set map `[("deleted_at", x)]` looks up to `none` for other keys. -/
theorem lookup_single_ne {x : JSVal} {k : String} (hk : k ≠ "deleted_at") :
    List.lookup k [("deleted_at", x)] = none := by
  have hbeq : (k == "deleted_at") = false := by
    simp only [beq_eq_false_iff_ne, ne_eq]
    exact hk
  rw [List.lookup_cons, hbeq]
  rfl

theorem matchesWhere_applySet_da (r : Row) (w : List (String × JSVal)) (x : JSVal)
    (hw : ∀ kv ∈ w, kv.1 ≠ "deleted_at") :
    matchesWhere (applySet r [("deleted_at", x)]) w = matchesWhere r w := by
  induction w with
  | nil => rfl
  | cons kv rest ih =>
    obtain ⟨k, v⟩ := kv
    have hk : k ≠ "deleted_at" := hw (k, v) (by simp)
    simp only [matchesWhere, List.all_cons]
    have hcond : evalCond (applySet r [("deleted_at", x)]) (.eqCol k v)
        = evalCond r (.eqCol k v) := by
      simp only [evalCond, lookup_applySet, lookup_single_ne hk]
      cases List.lookup k r <;> simp
    rw [hcond]
    have := ih (fun kv hkv => hw kv (List.mem_cons_of_mem _ hkv))
    simp only [matchesWhere] at this
    rw [this]

theorem unprocessValue_id_of_plain {key : Option String} {cfg : ColumnDefinition}
    (hjson : cfg.json = false) (henc : cfg.encrypted = false) (x : JSVal) :
    unprocessValue key x cfg = .ok x := by
  simp [unprocessValue, hjson, henc]

theorem unprocessRow_cons_inv {key : Option String} {schema : TableSchema}
    {k : String} {v : JSVal} {rest : Row} {r' : Row}
    (h : unprocessRow key schema ((k, v) :: rest) = .ok r') :
    ∃ v' rest',
      (match List.lookup k schema with
        | some cfg => unprocessValue key v cfg
        | none => Except.ok v) = .ok v' ∧
      unprocessRow key schema rest = .ok rest' ∧ r' = (k, v') :: rest' := by
  simp only [unprocessRow] at h
  cases hcfg : List.lookup k schema with
  | none =>
    rw [hcfg] at h
    simp only [bindE_ok] at h
    cases hr : unprocessRow key schema rest with
    | error e =>
      rw [hr, bindE_err] at h
      exact Except.noConfusion h
    | ok rest' =>
      rw [hr, bindE_ok] at h
      injection h with h2
      exact ⟨v, rest', rfl, rfl, h2.symm⟩
  | some cfg =>
    rw [hcfg] at h
    cases hv : unprocessValue key v cfg with
    | error e =>
      simp only [hv] at h
      rw [bindE_err] at h
      exact Except.noConfusion h
    | ok v' =>
      simp only [hv] at h
      rw [bindE_ok] at h
      cases hr : unprocessRow key schema rest with
      | error e =>
        rw [hr, bindE_err] at h
        exact Except.noConfusion h
      | ok rest' =>
        rw [hr, bindE_ok] at h
        injection h with h2
        exact ⟨v', rest', hv, rfl, h2.symm⟩

theorem unprocessRow_fst {key : Option String} {schema : TableSchema} :
    ∀ {r r' : Row}, unprocessRow key schema r = .ok r' →
      r'.map Prod.fst = r.map Prod.fst := by
  intro r
  induction r with
  | nil =>
    intro r' h
    simp only [unprocessRow] at h
    injection h with h2
    rw [← h2]
  | cons kv rest ih =>
    intro r' h
    obtain ⟨k, v⟩ := kv
    obtain ⟨v', rest', _, hrest, hshape⟩ := unprocessRow_cons_inv h
    rw [hshape]
    simp only [List.map_cons]
    rw [ih hrest]

theorem lookup_isSome_iff_mem_fst (c : String) :
    ∀ r : Row, (List.lookup c r).isSome = true ↔ c ∈ r.map Prod.fst := by
  intro r
  induction r with
  | nil => simp [List.lookup]
  | cons kv rest ih =>
    obtain ⟨k, v⟩ := kv
    by_cases hk : c = k
    · subst hk
      simp [List.lookup_cons]
    · have hbeq : (c == k) = false := by
        simp only [beq_eq_false_iff_ne, ne_eq]
        exact hk
      rw [List.lookup_cons, hbeq]
      simp only [List.map_cons, List.mem_cons]
      rw [ih]
      constructor
      · exact Or.inr
      · intro h
        rcases h with h | h
        · exact absurd h hk
        · exact h

theorem applySet_cons (kv : String × JSVal) (r : Row) (sets : List (String × JSVal)) :
    applySet (kv :: r) sets
      = (match List.lookup kv.1 sets with
          | some v => (kv.1, v)
          | none => kv) :: applySet r sets := rfl

theorem unprocessRow_applySet_da {key : Option String} {schema : TableSchema}
    {cfgda : ColumnDefinition} (now : String)
    (hcfg : List.lookup "deleted_at" schema = some cfgda)
    (hjson : cfgda.json = false) (henc : cfgda.encrypted = false) :
    ∀ {r r' : Row}, unprocessRow key schema r = .ok r' →
      unprocessRow key schema (applySet r [("deleted_at", .vstr now)])
        = .ok (applySet r' [("deleted_at", .vstr now)]) := by
  intro r
  induction r with
  | nil =>
    intro r' h
    simp only [unprocessRow] at h
    injection h with h2
    rw [← h2]
    rfl
  | cons kv rest ih =>
    intro r' h
    obtain ⟨k, v⟩ := kv
    obtain ⟨v', rest', hv, hrest, hshape⟩ := unprocessRow_cons_inv h
    rw [hshape]
    by_cases hk : k = "deleted_at"
    · subst hk
      have hlk : List.lookup "deleted_at"
          ([("deleted_at", JSVal.vstr now)] : List (String × JSVal))
          = some (.vstr now) := by
        simp [List.lookup_cons]
      rw [applySet_cons, applySet_cons]
      simp only [hlk]
      simp only [unprocessRow, hcfg,
        @unprocessValue_id_of_plain key cfgda hjson henc, bindE_ok, ih hrest]
    · have hlk : List.lookup k ([("deleted_at", JSVal.vstr now)] : List (String × JSVal))
          = none := lookup_single_ne hk
      rw [applySet_cons, applySet_cons]
      simp only [hlk]
      cases hcfg2 : List.lookup k schema with
      | none =>
        simp only [hcfg2] at hv
        injection hv with hv2
        simp only [unprocessRow, hcfg2, bindE_ok, ih hrest, hv2]
      | some cfg =>
        simp only [hcfg2] at hv
        simp only [unprocessRow, hcfg2, hv, bindE_ok, ih hrest]

theorem processValue_id_of_plain {key : Option String} {cfg : ColumnDefinition}
    (hjson : cfg.json = false) (henc : cfg.encrypted = false) (x : JSVal) :
    processValue key x cfg = .ok x := by
  simp [processValue, hjson, henc]

theorem hasSoftDelete_of_softDeleteColumn {schema : TableSchema} {c : String}
    (h : softDeleteColumn schema = some c) : hasSoftDelete schema = true := by
  cases hf : schema.find? (fun p => p.2.softDelete) with
  | none =>
    rw [softDeleteColumn, hf] at h
    exact Option.noConfusion h
  | some p =>
    have hp := List.find?_some hf
    have hmem := List.mem_of_find?_eq_some hf
    simp only [hasSoftDelete, List.any_eq_true]
    exact ⟨p, hmem, hp⟩

theorem conds_all_map_eq (w : List (String × JSVal)) (r : Row) :
    (w.map (fun kv => Cond.eqCol kv.1 kv.2)).all (evalCond r) = matchesWhere r w := by
  rw [all_map_comp]
  rfl

theorem lookup_da_self (x : JSVal) :
    List.lookup "deleted_at" ([("deleted_at", x)] : List (String × JSVal)) = some x := by
  simp [List.lookup_cons]

theorem evalCond_isNull_stamped {r : Row} (now : String)
    (hda : (List.lookup "deleted_at" r).isSome = true) :
    evalCond (applySet r [("deleted_at", JSVal.vstr now)]) (.isNullC "deleted_at") = false := by
  simp only [evalCond]
  rw [lookup_applySet]
  cases h : List.lookup "deleted_at" r with
  | none => rw [h] at hda; exact Bool.noConfusion hda
  | some v => rfl

theorem filter_map_stamp (w : List (String × JSVal)) (x : JSVal)
    (hwda : ∀ kv ∈ w, kv.1 ≠ "deleted_at") :
    ∀ rows : List Row,
      (rows.map (fun r =>
          if matchesWhere r w then applySet r [("deleted_at", x)] else r)).filter
          (fun r => matchesWhere r w)
        = (rows.filter (fun r => matchesWhere r w)).map
            (fun r => applySet r [("deleted_at", x)]) := by
  intro rows
  induction rows with
  | nil => rfl
  | cons r rest ih =>
    simp only [List.map_cons, List.filter_cons]
    by_cases hm : matchesWhere r w = true
    · rw [if_pos hm]
      rw [matchesWhere_applySet_da r w x hwda] at *
      rw [if_pos hm, if_pos hm]
      simp only [List.map_cons]
      rw [ih]
    · rw [if_neg hm]
      have hm' : matchesWhere r w = false := by
        cases hb : matchesWhere r w
        · rfl
        · exact absurd hb hm
      rw [hm']
      simp only [Bool.false_eq_true, if_false]
      exact ih

theorem stamped_conds_false (w : List (String × JSVal)) (now : String) (r : Row)
    (hda : (List.lookup "deleted_at" r).isSome = true) :
    (Cond.isNullC "deleted_at" :: w.map (fun kv => Cond.eqCol kv.1 kv.2)).all
      (evalCond (if matchesWhere r w then applySet r [("deleted_at", JSVal.vstr now)] else r))
      = false := by
  by_cases hm : matchesWhere r w = true
  · rw [if_pos hm]
    rw [List.all_cons, evalCond_isNull_stamped now hda]
    rfl
  · have hm' : matchesWhere r w = false := by
      cases hb : matchesWhere r w
      · rfl
      · exact absurd hb hm
    rw [if_neg hm]
    rw [List.all_cons, conds_all_map_eq, hm']
    rw [Bool.and_false]

theorem stamped_filter_nil (w : List (String × JSVal)) (now : String) :
    ∀ rows : List Row, (∀ r ∈ rows, (List.lookup "deleted_at" r).isSome = true) →
      ((rows.map (fun r =>
          if matchesWhere r w then applySet r [("deleted_at", JSVal.vstr now)] else r)).filter
          (fun r =>
            (Cond.isNullC "deleted_at" :: w.map (fun kv => Cond.eqCol kv.1 kv.2)).all
              (evalCond r)))
        = [] := by
  intro rows hrows
  induction rows with
  | nil => rfl
  | cons r rest ih =>
    simp only [List.map_cons, List.filter_cons]
    rw [stamped_conds_false w now r (hrows r (List.mem_cons_self r rest))]
    simp only [Bool.false_eq_true, if_false]
    exact ih (fun r2 h2 => hrows r2 (List.mem_cons_of_mem r h2))

theorem unprocessRows_stamped {key : Option String} {schema : TableSchema}
    {cfgda : ColumnDefinition} (now : String)
    (hcfg : List.lookup "deleted_at" schema = some cfgda)
    (hjson : cfgda.json = false) (henc : cfgda.encrypted = false) :
    ∀ l : List Row,
      (∀ r ∈ l, ∃ r2, unprocessRow key schema r = .ok r2) →
      (∀ r ∈ l, (List.lookup "deleted_at" r).isSome = true) →
      ∃ rs, unprocessRows key schema
          (l.map (fun r => applySet r [("deleted_at", JSVal.vstr now)])) = .ok rs ∧
        rs.length = l.length ∧
        ∀ r2 ∈ rs, List.lookup "deleted_at" r2 = some (.vstr now) := by
  intro l
  induction l with
  | nil =>
    intro _ _
    exact ⟨[], rfl, rfl, fun r2 h2 => absurd h2 (List.not_mem_nil r2)⟩
  | cons r rest ih =>
    intro hdec hda
    obtain ⟨r2, hr2⟩ := hdec r (List.mem_cons_self r rest)
    obtain ⟨rs', hrs', hlen, hstamp⟩ :=
      ih (fun a ha => hdec a (List.mem_cons_of_mem r ha))
        (fun a ha => hda a (List.mem_cons_of_mem r ha))
    have hhead := @unprocessRow_applySet_da key schema cfgda now hcfg hjson henc r r2 hr2
    refine ⟨applySet r2 [("deleted_at", JSVal.vstr now)] :: rs', ?_, ?_, ?_⟩
    · simp only [List.map_cons, unprocessRows, hhead, bindE_ok, hrs']
    · simp only [List.length_cons, hlen]
    · intro r3 h3
      rcases List.mem_cons.mp h3 with h3 | h3
      · rw [h3, lookup_applySet]
        have hsome : (List.lookup "deleted_at" r2).isSome = true := by
          rw [lookup_isSome_iff_mem_fst, unprocessRow_fst hr2,
            ← lookup_isSome_iff_mem_fst]
          exact hda r (List.mem_cons_self r rest)
        cases hv : List.lookup "deleted_at" r2 with
        | none => rw [hv] at hsome; exact Bool.noConfusion hsome
        | some v => rfl
      · exact hstamp r3 h3

theorem processRow_stamp {key : Option String} {schema : TableSchema}
    {cfgda : ColumnDefinition} (now : String)
    (hcfg : List.lookup "deleted_at" schema = some cfgda)
    (hjson : cfgda.json = false) (henc : cfgda.encrypted = false) :
    processRow key schema [("deleted_at", JSVal.vstr now)]
      = .ok [("deleted_at", JSVal.vstr now)] := by
  simp only [processRow, hcfg,
    @processValue_id_of_plain key cfgda hjson henc, bindE_ok]

theorem updateOp_stamp_ok {db : GrokDB} {t : String} {schema : TableSchema}
    {cfgda : ColumnDefinition} {ts : TableStore} {w : List (String × JSVal)}
    (now : String)
    (hschema : List.lookup t db.tables = some schema)
    (hvalid : List.lookup t db.validators = none)
    (hcfg : List.lookup "deleted_at" schema = some cfgda)
    (hjson : cfgda.json = false) (henc : cfgda.encrypted = false)
    (hts : List.lookup t db.store = some ts)
    (hcolda : ts.cols.contains "deleted_at" = true)
    (hwcols : w.all (fun kv => ts.cols.contains kv.1) = true) :
    updateOp db t [("deleted_at", .vstr now)] w
      = .ok ({ db with store := storeSet db.store t
                          ({ ts with rows := ts.rows.map (fun r =>
                              if matchesWhere r w
                              then applySet r [("deleted_at", JSVal.vstr now)]
                              else r) }) },
        [t ++ ":update"]) := by
  simp only [updateOp]
  rw [hschema]
  simp only [bindE_ok, bindE_err, pureE, throwE]
  rw [hvalid]
  simp only [bindE_ok, bindE_err, pureE, throwE]
  rw [@processRow_stamp db.encryptionKey schema cfgda now hcfg hjson henc, bindE_ok]
  rw [hts]
  simp only [bindE_ok, bindE_err, pureE, throwE]
  have hcond : (([("deleted_at", JSVal.vstr now)].all (fun kv => ts.cols.contains kv.1)
      && w.all (fun kv => ts.cols.contains kv.1)) = true) := by
    rw [List.all_cons, List.all_nil, hcolda, hwcols]
    rfl
  rw [if_pos hcond]

theorem conds_cols_map_eq (w : List (String × JSVal)) (cols : List String) :
    (w.map (fun kv => Cond.eqCol kv.1 kv.2)).all (fun c => cols.contains (condCol c))
      = w.all (fun kv => cols.contains kv.1) := by
  rw [all_map_comp]
  rfl

theorem findOp_excluded {db2 : GrokDB} {t : String} {schema : TableSchema}
    {ts2 : TableStore} {w : List (String × JSVal)}
    (hschema : List.lookup t db2.tables = some schema)
    (hsd : hasSoftDelete schema = true)
    (hts : List.lookup t db2.store = some ts2)
    (hcolda : ts2.cols.contains "deleted_at" = true)
    (hwcols : w.all (fun kv => ts2.cols.contains kv.1) = true)
    (hfilter : ts2.rows.filter (fun r =>
        (Cond.isNullC "deleted_at" :: w.map (fun kv => Cond.eqCol kv.1 kv.2)).all
          (evalCond r)) = []) :
    findOp db2 t w {} = .ok [] := by
  simp only [findOp]
  rw [hschema]
  simp only [bindE_ok, bindE_err, pureE, throwE]
  rw [hts]
  simp only [bindE_ok, bindE_err, pureE, throwE]
  rw [hsd]
  simp only [Bool.true_and, Bool.not_false, if_true, List.cons_append, List.nil_append]
  have hcond : ((Cond.isNullC "deleted_at" :: w.map (fun kv => Cond.eqCol kv.1 kv.2)).all
      (fun c => ts2.cols.contains (condCol c)) && true) = true := by
    rw [List.all_cons, conds_cols_map_eq, hwcols]
    simp only [condCol, hcolda]
    rfl
  rw [if_pos hcond]
  rw [hfilter]
  rfl

theorem findOp_include_deleted {db2 : GrokDB} {t : String} {schema : TableSchema}
    {ts2 : TableStore} {w : List (String × JSVal)}
    (hschema : List.lookup t db2.tables = some schema)
    (hts : List.lookup t db2.store = some ts2)
    (hwcols : w.all (fun kv => ts2.cols.contains kv.1) = true) :
    findOp db2 t w { includeDeleted := true }
      = unprocessRows db2.encryptionKey schema
          (ts2.rows.filter (fun r => matchesWhere r w)) := by
  simp only [findOp]
  rw [hschema]
  simp only [bindE_ok, bindE_err, pureE, throwE]
  rw [hts]
  simp only [bindE_ok, bindE_err, pureE, throwE]
  simp only [Bool.not_true, Bool.and_false, Bool.false_eq_true, if_false, List.nil_append]
  have hcond : ((w.map (fun kv => Cond.eqCol kv.1 kv.2)).all
      (fun c => ts2.cols.contains (condCol c)) && true) = true := by
    rw [conds_cols_map_eq, hwcols]
    rfl
  rw [if_pos hcond]
  have hpred : (fun r => (w.map (fun kv => Cond.eqCol kv.1 kv.2)).all (evalCond r))
      = (fun r => matchesWhere r w) := by
    funext r
    exact conds_all_map_eq w r
  rw [hpred]
  rfl

/-- **C1** (amended): for a table whose soft-delete column is named
`deleted_at` — the only name for which `find`'s hardcoded
`deleted_at IS NULL` predicate matches the column `delete` stamps — and
whose `deleted_at` column is a plain column (no json/encrypted codec), on
a table without a validator whose stored rows all carry a `deleted_at`
entry and all decode successfully: `delete` rewrites the deletion into
the update that stamps the timestamp into `deleted_at`, a subsequent
default `find` with the same WHERE excludes all the deleted rows, and
`find` with `includeDeleted := true` returns them (one per previously
matching row) with their soft-delete column non-null (the timestamp).

The WHERE map must be nonempty (`_hwne`): at an empty one the source
interpolates an empty where-clause into `UPDATE t SET deleted_at = ?
WHERE ` (src/index.ts lines 366-372) and `prepare` throws a SQLite
syntax error, a prepare-time failure the in-memory model does not
replicate, so the round trip is not claimed there. -/
theorem C1_soft_delete
    {db : GrokDB} {t : String} {schema : TableSchema} {cfgda : ColumnDefinition}
    {ts : TableStore} {w : List (String × JSVal)} (now : String)
    (hschema : List.lookup t db.tables = some schema)
    (hsd : softDeleteColumn schema = some "deleted_at")
    (hcfg : List.lookup "deleted_at" schema = some cfgda)
    (hjson : cfgda.json = false) (henc : cfgda.encrypted = false)
    (hvalid : List.lookup t db.validators = none)
    (hts : List.lookup t db.store = some ts)
    (hcolda : ts.cols.contains "deleted_at" = true)
    (hwcols : w.all (fun kv => ts.cols.contains kv.1) = true)
    (hwda : ∀ kv ∈ w, kv.1 ≠ "deleted_at")
    (hrows : ∀ r ∈ ts.rows, (List.lookup "deleted_at" r).isSome = true)
    (hdec : ∀ r ∈ ts.rows, ∃ r2, unprocessRow db.encryptionKey schema r = .ok r2)
    (_hwne : w ≠ []) :
    ∃ dbAfter,
      deleteOp db t w now = updateOp db t [("deleted_at", .vstr now)] w ∧
      deleteOp db t w now = .ok (dbAfter, [t ++ ":update"]) ∧
      findOp dbAfter t w {} = .ok [] ∧
      ∃ rs, findOp dbAfter t w { includeDeleted := true } = .ok rs ∧
        rs.length = (ts.rows.filter (fun r => matchesWhere r w)).length ∧
        ∀ r2 ∈ rs, List.lookup "deleted_at" r2 = some (.vstr now) := by
  have hdeleg := @deleteOp_soft_delegates db t schema w now "deleted_at" hschema hsd
  have hupd := updateOp_stamp_ok now hschema hvalid hcfg hjson henc hts hcolda hwcols
  have hsome : (List.lookup t db.store).isSome = true := by rw [hts]; rfl
  refine ⟨_, hdeleg, hdeleg.trans hupd, ?_, ?_⟩
  · exact findOp_excluded hschema (hasSoftDelete_of_softDeleteColumn hsd)
      (lookup_storeSet_self db.store t _ hsome)
      hcolda hwcols (stamped_filter_nil w now ts.rows hrows)
  · have hts2 : List.lookup t (storeSet db.store t
        ({ ts with rows := ts.rows.map (fun r =>
            if matchesWhere r w
            then applySet r [("deleted_at", JSVal.vstr now)]
            else r) })) = some ({ ts with rows := ts.rows.map (fun r =>
            if matchesWhere r w
            then applySet r [("deleted_at", JSVal.vstr now)]
            else r) }) :=
      lookup_storeSet_self db.store t _ hsome
    have hfind := @findOp_include_deleted
        ({ db with store := storeSet db.store t
                              ({ ts with rows := ts.rows.map (fun r =>
                                  if matchesWhere r w
                                  then applySet r [("deleted_at", JSVal.vstr now)]
                                  else r) }) }) t schema
        ({ ts with rows := ts.rows.map (fun r =>
            if matchesWhere r w
            then applySet r [("deleted_at", JSVal.vstr now)]
            else r) }) w hschema hts2 hwcols
    have hdec2 : ∀ r ∈ ts.rows.filter (fun r => matchesWhere r w),
        ∃ r2, unprocessRow db.encryptionKey schema r = .ok r2 :=
      fun r hr => hdec r (List.mem_of_mem_filter hr)
    have hda2 : ∀ r ∈ ts.rows.filter (fun r => matchesWhere r w),
        (List.lookup "deleted_at" r).isSome = true :=
      fun r hr => hrows r (List.mem_of_mem_filter hr)
    obtain ⟨rs, hrs, hlen, hstamp⟩ :=
      @unprocessRows_stamped db.encryptionKey schema cfgda now hcfg hjson henc
        (ts.rows.filter (fun r => matchesWhere r w)) hdec2 hda2
    refine ⟨rs, ?_, ?_, hstamp⟩
    · refine hfind.trans ?_
      show unprocessRows db.encryptionKey schema
          ((ts.rows.map (fun r =>
              if matchesWhere r w
              then applySet r [("deleted_at", JSVal.vstr now)]
              else r)).filter (fun r => matchesWhere r w)) = Except.ok rs
      rw [filter_map_stamp w (.vstr now) hwda ts.rows]
      exact hrs
    · rw [hlen]

/-- Witness fixture for the amended C1: the soft-delete column is
actually named `deleted_at`, so `find`'s hardcoded predicate matches. -/
def c1wcfg : ColumnDefinition := { type := .datetime, softDelete := true }

def c1wts : TableStore :=
  { cols := ["id", "deleted_at"],
    rows := [[("id", .vnum 1), ("deleted_at", .vnull)]] }

def c1wschema : TableSchema :=
  [("id", { type := .integer }), ("deleted_at", c1wcfg)]

def c1wdb : GrokDB :=
  { tables := [("t", c1wschema)],
    validators := [],
    encryptionKey := none,
    store := [("t", c1wts)],
    migrations := [] }

/-- Witness for the amended C1 at a concrete one-row table. -/
theorem C1_witness :
    ∃ dbAfter,
      deleteOp c1wdb "t" [("id", JSVal.vnum 1)] "2024-01-01T00:00:00.000Z"
        = updateOp c1wdb "t" [("deleted_at", JSVal.vstr "2024-01-01T00:00:00.000Z")]
            [("id", JSVal.vnum 1)] ∧
      deleteOp c1wdb "t" [("id", JSVal.vnum 1)] "2024-01-01T00:00:00.000Z"
        = .ok (dbAfter, ["t:update"]) ∧
      findOp dbAfter "t" [("id", JSVal.vnum 1)] {} = .ok [] ∧
      ∃ rs, findOp dbAfter "t" [("id", JSVal.vnum 1)] { includeDeleted := true }
          = .ok rs ∧
        rs.length = 1 ∧
        ∀ r2 ∈ rs, List.lookup "deleted_at" r2
          = some (.vstr "2024-01-01T00:00:00.000Z") :=
  @C1_soft_delete c1wdb "t" c1wschema c1wcfg c1wts [("id", JSVal.vnum 1)]
    "2024-01-01T00:00:00.000Z" rfl rfl rfl rfl rfl rfl rfl rfl rfl
    (by
      intro kv hkv
      rw [List.mem_singleton] at hkv
      rw [hkv]
      decide)
    (by
      intro r hr
      replace hr : r ∈ ([[("id", JSVal.vnum 1), ("deleted_at", JSVal.vnull)]] : List Row) := hr
      rw [List.mem_singleton] at hr
      rw [hr]
      rfl)
    (by
      intro r hr
      replace hr : r ∈ ([[("id", JSVal.vnum 1), ("deleted_at", JSVal.vnull)]] : List Row) := hr
      rw [List.mem_singleton] at hr
      rw [hr]
      exact ⟨_, rfl⟩)
    (List.cons_ne_nil _ _)
